import Mathlib

/-!
Shallow embedding of `0x02-redis_basic/exercise.py`: a Redis-backed `Cache`
facade with two instrumentation decorators (`count_calls`, `call_history`)
and a `replay` reporter.

The backing store is modelled as a `World`: a string-keyed map of byte
strings (Redis string values), a string-keyed map of byte-string lists
(Redis list values), an append-only log of the store commands issued
(used to state ordering and "no I/O" properties), and an oracle supplying
the successive `uuid.uuid4()` results (`uuidOf`/`seed`).

Byte strings are `List Nat` (each element one byte).  Values cross the
Python/Redis boundary exactly as in `redis-py`: `str` values are UTF-8
encoded, `bytes` pass through, `int` values are rendered in decimal ASCII.
The UTF-8 codec and the decimal integer parser are defined from scratch at
the byte level and proved correct below, because `get_str`/`get_int` and
the counter protocol depend on them.
-/

namespace RedisBasic

set_option maxRecDepth 4000

/-! ## Definitions -/
/-- Byte strings: each element is one byte value. -/
abbrev Bytes := List Nat

/-- Concatenation of the images of a list under a list-valued map. -/
def concatMap (f : α → List β) : List α → List β
  | [] => []
  | a :: l => f a ++ concatMap f l

/-! ### UTF-8 codec (CPython / Redis wire encoding of text) -/

/-- UTF-8 encoding of a single Unicode scalar value (1 to 4 bytes). -/
def encodeCP (n : Nat) : Bytes :=
  if n < 0x80 then [n]
  else if n < 0x800 then [0xC0 + n / 64, 0x80 + n % 64]
  else if n < 0x10000 then
    [0xE0 + n / 4096, 0x80 + n / 64 % 64, 0x80 + n % 64]
  else
    [0xF0 + n / 262144, 0x80 + n / 4096 % 64, 0x80 + n / 64 % 64,
      0x80 + n % 64]

/-- Scalar value assembled from a 2-byte UTF-8 sequence. -/
def cp2 (b0 b1 : Nat) : Nat := (b0 - 0xC0) * 64 + (b1 - 0x80)

/-- Scalar value assembled from a 3-byte UTF-8 sequence. -/
def cp3 (b0 b1 b2 : Nat) : Nat :=
  (b0 - 0xE0) * 4096 + (b1 - 0x80) * 64 + (b2 - 0x80)

/-- Scalar value assembled from a 4-byte UTF-8 sequence. -/
def cp4 (b0 b1 b2 b3 : Nat) : Nat :=
  (b0 - 0xF0) * 262144 + (b1 - 0x80) * 4096 + (b2 - 0x80) * 64 + (b3 - 0x80)

/-- Continuation of a 2-byte sequence with lead byte `b0`. -/
def contTail1 (b0 : Nat) : Bytes → Option (Nat × Bytes)
  | b1 :: t1 =>
    if 0x80 ≤ b1 ∧ b1 < 0xC0 then some (cp2 b0 b1, t1) else none
  | [] => none

/-- Continuation of a 3-byte sequence with lead byte `b0`; rejects overlong
forms and surrogates. -/
def contTail2 (b0 : Nat) : Bytes → Option (Nat × Bytes)
  | b1 :: b2 :: t2 =>
    if (0x80 ≤ b1 ∧ b1 < 0xC0) ∧ (0x80 ≤ b2 ∧ b2 < 0xC0) then
      if 0x800 ≤ cp3 b0 b1 b2 ∧
          (cp3 b0 b1 b2 < 0xD800 ∨ 0xE000 ≤ cp3 b0 b1 b2) then
        some (cp3 b0 b1 b2, t2)
      else none
    else none
  | [_] => none
  | [] => none

/-- Continuation of a 4-byte sequence with lead byte `b0`; rejects overlong
forms and values above U+10FFFF. -/
def contTail3 (b0 : Nat) : Bytes → Option (Nat × Bytes)
  | b1 :: b2 :: b3 :: t3 =>
    if (0x80 ≤ b1 ∧ b1 < 0xC0) ∧ (0x80 ≤ b2 ∧ b2 < 0xC0) ∧
        (0x80 ≤ b3 ∧ b3 < 0xC0) then
      if 0x10000 ≤ cp4 b0 b1 b2 b3 ∧ cp4 b0 b1 b2 b3 < 0x110000 then
        some (cp4 b0 b1 b2 b3, t3)
      else none
    else none
  | [_, _] => none
  | [_] => none
  | [] => none

/-- Strict decoding of one UTF-8 sequence from the front of a byte string,
returning the scalar value and the remaining bytes.  Rejects truncated
sequences, stray or missing continuation bytes, overlong forms, surrogates
and values above U+10FFFF, exactly as CPython's strict
UTF-8 decoding does. -/
def decodeOne : Bytes → Option (Nat × Bytes)
  | [] => none
  | b0 :: t =>
    if b0 < 0x80 then some (b0, t)
    else if 0xC2 ≤ b0 ∧ b0 < 0xE0 then contTail1 b0 t
    else if 0xE0 ≤ b0 ∧ b0 < 0xF0 then contTail2 b0 t
    else if 0xF0 ≤ b0 ∧ b0 < 0xF5 then contTail3 b0 t
    else none

/-- Fuel-driven decoding loop; `decodeCPs` supplies enough fuel. -/
def decodeLoop : Nat → Bytes → Option (List Nat)
  | _, [] => some []
  | 0, _ :: _ => none
  | fuel + 1, b0 :: t =>
    match decodeOne (b0 :: t) with
    | some (n, rest) => (decodeLoop fuel rest).map (n :: ·)
    | none => none

/-- Strict UTF-8 decoder at the code-point level. -/
def decodeCPs (l : Bytes) : Option (List Nat) := decodeLoop l.length l

/-- UTF-8 encoding of a Lean string (CPython's UTF-8 encoding of `str`,
which is also how `redis-py` serializes `str` values onto the wire). -/
def strUtf8 (s : String) : Bytes :=
  concatMap encodeCP (s.data.map Char.toNat)

/-- Strict UTF-8 decoding of a byte string to text (CPython's strict
UTF-8 decoding of `bytes`; `none` models `UnicodeDecodeError`). -/
def utf8DecodeStr (b : Bytes) : Option String :=
  (decodeCPs b).map (fun l => String.mk (l.map Char.ofNat))

/-! ### Decimal ASCII integers (Redis counter values, `int()` parsing) -/

/-- Decimal ASCII digits of a natural number, most significant first. -/
def natToDigitBytes (n : Nat) : Bytes :=
  if h : n < 10 then [48 + n] else natToDigitBytes (n / 10) ++ [48 + n % 10]
termination_by n
decreasing_by
  omega

/-- Decimal ASCII rendering of an integer, as produced both by Redis for
counter values and by CPython's `repr`/`str` for `int`. -/
def intToBytes : Int → Bytes
  | Int.ofNat n => natToDigitBytes n
  | Int.negSucc m => 45 :: natToDigitBytes (m + 1)

/-- Value accumulation over a run of ASCII digits; `none` on any
non-digit byte. -/
def digitsValAux : Bytes → Nat → Option Nat
  | [], acc => some acc
  | b :: t, acc =>
    if 48 ≤ b ∧ b ≤ 57 then digitsValAux t (acc * 10 + (b - 48)) else none

/-- Value of a nonempty all-digit byte string; `none` otherwise. -/
def digitsVal : Bytes → Option Nat
  | [] => none
  | b :: t => digitsValAux (b :: t) 0

/-- Redis's parse of a string value as a 64-bit style integer for `INCR`:
an optional leading minus sign followed by one or more digits.
`none` models the "value is not an integer" error reply. -/
def redisParseInt (l : Bytes) : Option Int :=
  match l with
  | [] => none
  | b :: t =>
    if b = 45 then (digitsVal t).map (fun n => -(n : Int))
    else (digitsVal (b :: t)).map (fun n => (n : Int))

/-- ASCII whitespace as stripped by CPython's `int()` applied to bytes. -/
def isPySpace (b : Nat) : Bool :=
  b = 9 || b = 10 || b = 11 || b = 12 || b = 13 || b = 32

/-- Strip ASCII whitespace from both ends, as `int()` does. -/
def stripWS (l : Bytes) : Bytes :=
  ((l.dropWhile isPySpace).reverse.dropWhile isPySpace).reverse

/-- Decimal digit byte test. -/
def isDigitByte (b : Nat) : Bool :=
  decide (48 ≤ b) && decide (b ≤ 57)

/-- Value accumulation over the remainder of a digit run with PEP 515
underscore grouping: the remainder must match `(underscore? digit)*`,
each underscore single and followed by a digit.  `none` on any
violation. -/
def digitsGroupAux : Bytes → Nat → Option Nat
  | [], acc => some acc
  | b :: t, acc =>
    if 48 ≤ b ∧ b ≤ 57 then digitsGroupAux t (acc * 10 + (b - 48))
    else if b = 95 then
      match t with
      | c :: t2 =>
        if 48 ≤ c ∧ c ≤ 57 then digitsGroupAux t2 (acc * 10 + (c - 48))
        else none
      | [] => none
    else none

/-- Value of a nonempty underscore-grouped digit string as accepted by
CPython's `int()` since PEP 515: `digit (underscore? digit)*`.  `none`
otherwise. -/
def digitsUVal : Bytes → Option Nat
  | [] => none
  | b :: t =>
    if 48 ≤ b ∧ b ≤ 57 then digitsGroupAux t (b - 48) else none

/-- CPython's `int(x)` on a byte string: optional surrounding ASCII
whitespace, optional sign, then one or more decimal digits with PEP 515
underscore grouping (single underscores between digits).  `none` models
`ValueError`. -/
def pyIntParse (l : Bytes) : Option Int :=
  match stripWS l with
  | [] => none
  | b :: t =>
    if b = 43 then (digitsUVal t).map (fun n => (n : Int))
    else if b = 45 then (digitsUVal t).map (fun n => -(n : Int))
    else (digitsUVal (b :: t)).map (fun n => (n : Int))

/-- True when no underscore byte is immediately followed by another
underscore byte. -/
def noAdjU (u : Bytes) : Bool :=
  (u.zip u.tail).all (fun p => !(decide (p.1 = 95) && decide (p.2 = 95)))

/-- True when the string is nonempty and its last byte is a digit. -/
def lastDigit (u : Bytes) : Bool :=
  match u.getLast? with
  | some d => isDigitByte d
  | none => false

/-- Modelled from the spec: a valid base-10 integer literal in the sense
of §4.3/§8, under CPython's literal syntax — optional surrounding
whitespace, an optional sign, and at least one decimal digit, with single
underscores permitted between digits (PEP 515).  Phrased positionally
(first and last byte digits, every byte a digit or an underscore, no two
adjacent underscores), independently of `pyIntParse`, so that the
`get_int` error claim relates two separate definitions. -/
def isIntLiteral (l : Bytes) : Bool :=
  match stripWS l with
  | [] => false
  | b :: t =>
    match (if b = 43 || b = 45 then t else b :: t) with
    | [] => false
    | c :: rest =>
      isDigitByte c &&
        (c :: rest).all (fun d => isDigitByte d || decide (d = 95)) &&
        lastDigit (c :: rest) && noAdjU (c :: rest)

/-! ### Python value renderings (`repr`/`str`) -/

/-- Escaping of one character inside a CPython `str` repr quoted with `q`:
backslash, the quote character, and the common control characters newline,
carriage return and tab get a backslash escape; other characters are kept
as-is (CPython additionally hex-escapes rare non-printable characters; the
claims under proof never depend on those renderings). -/
def strEscChar (q : Char) (c : Char) : List Char :=
  if c = Char.ofNat 92 then [Char.ofNat 92, Char.ofNat 92]
  else if c = q then [Char.ofNat 92, q]
  else if c = Char.ofNat 10 then [Char.ofNat 92, Char.ofNat 110]
  else if c = Char.ofNat 13 then [Char.ofNat 92, Char.ofNat 114]
  else if c = Char.ofNat 9 then [Char.ofNat 92, Char.ofNat 116]
  else [c]

/-- CPython `repr` of a text string: single quotes, switching to double
quotes when the text contains a single quote but no double quote. -/
def pyReprStr (s : String) : String :=
  let q : Char :=
    if s.data.contains (Char.ofNat 39) ∧ ¬ s.data.contains (Char.ofNat 34)
    then Char.ofNat 34 else Char.ofNat 39
  String.mk (q :: (concatMap (strEscChar q) s.data ++ [q]))

/-- Lower-case hexadecimal digit character. -/
def hexDigitChar (n : Nat) : Char :=
  if n < 10 then Char.ofNat (48 + n) else Char.ofNat (87 + n)

/-- Escaping of one byte inside a CPython `bytes` repr quoted with `q`. -/
def bytesEscByte (q : Nat) (b : Nat) : List Char :=
  if b = 92 then [Char.ofNat 92, Char.ofNat 92]
  else if b = q then [Char.ofNat 92, Char.ofNat q]
  else if b = 9 then [Char.ofNat 92, Char.ofNat 116]
  else if b = 10 then [Char.ofNat 92, Char.ofNat 110]
  else if b = 13 then [Char.ofNat 92, Char.ofNat 114]
  else if 32 ≤ b ∧ b < 127 then [Char.ofNat b]
  else [Char.ofNat 92, Char.ofNat 120, hexDigitChar (b / 16 % 16),
    hexDigitChar (b % 16)]

/-- CPython `repr`/`str` of a `bytes` value (`b` marker plus quoted,
escaped content), as produced when `replay` formats an output entry. -/
def pyReprBytes (b : Bytes) : String :=
  let q : Nat := if b.contains 39 ∧ ¬ b.contains 34 then 34 else 39
  String.mk (Char.ofNat 98 :: Char.ofNat q ::
    (concatMap (bytesEscByte q) b ++ [Char.ofNat q]))

/-- Scalar values accepted by `Cache.store` (the `Union[str, bytes, int,
float]` annotation; the `float` member is uninterpreted here since the
claims quantify over text, bytes and integers). -/
inductive Data where
  | str (s : String)
  | bytes (b : Bytes)
  | int (n : Int)
deriving DecidableEq

/-- CPython `repr` of a stored scalar. -/
def pyReprData : Data → String
  | Data.str s => pyReprStr s
  | Data.bytes b => pyReprBytes b
  | Data.int n => String.mk ((intToBytes n).map Char.ofNat)

/-- CPython `str(args)` for the one-element positional tuple of a
`store` call. -/
def renderStoreArgs (d : Data) : String :=
  "(" ++ pyReprData d ++ ",)"

/-- Serialization a value undergoes on its way into the store
(`redis-py`'s encoder): text is UTF-8 encoded, bytes pass through,
integers are rendered in decimal ASCII. -/
def encodeData : Data → Bytes
  | Data.str s => strUtf8 s
  | Data.bytes b => b
  | Data.int n => intToBytes n

/-! ### The backing store: state, command log, uuid oracle -/

/-- One store command, recorded in issue order. -/
inductive Event where
  | getE (k : String)
  | setE (k : String) (v : Bytes)
  | incrE (k : String)
  | rpushE (k : String) (v : Bytes)
  | lrangeE (k : String)
  | existsE (k : String)
  | flushE
deriving DecidableEq

/-- Python-level exceptions that can escape the embedded functions. -/
inductive PyErr where
  | attributeError (msg : String)
  | typeError (msg : String)
  | valueError (msg : String)
  | unicodeDecodeError
  | responseError (msg : String)
deriving DecidableEq

/-- The world: string values and list values of the backing store, the
append-only command log, and the oracle enumerating `uuid.uuid4()`
results (`uuidOf` applied to `seed`, `seed + 1`, ...). -/
structure World where
  kv : String → Option Bytes
  lists : String → List Bytes
  log : List Event
  uuidOf : Nat → String
  seed : Nat

/-- Redis `SET`. -/
def World.setRaw (w : World) (k : String) (v : Bytes) : World :=
  { w with kv := fun x => if x = k then some v else w.kv x,
           log := w.log ++ [Event.setE k v] }

/-- Redis `GET` (read of a string value, `none` when absent). -/
def World.getRaw (w : World) (k : String) : Option Bytes × World :=
  (w.kv k, { w with log := w.log ++ [Event.getE k] })

/-- Redis `INCR`: parse the current value as an integer (0 when the key is
absent), add one, store the decimal rendering; error reply when the
current value is not an integer. -/
def World.incrRaw (w : World) (k : String) : Except PyErr Int × World :=
  match w.kv k with
  | none =>
    (Except.ok 1,
      { w with kv := fun x => if x = k then some (intToBytes 1) else w.kv x,
               log := w.log ++ [Event.incrE k] })
  | some b =>
    match redisParseInt b with
    | some i =>
      (Except.ok (i + 1),
        { w with
            kv := fun x => if x = k then some (intToBytes (i + 1))
              else w.kv x,
            log := w.log ++ [Event.incrE k] })
    | none =>
      (Except.error (PyErr.responseError "value is not an integer"),
        { w with log := w.log ++ [Event.incrE k] })

/-- Redis `RPUSH` (append to a list value, creating it when absent). -/
def World.rpushRaw (w : World) (k : String) (v : Bytes) : World :=
  { w with lists := fun x => if x = k then w.lists x ++ [v] else w.lists x,
           log := w.log ++ [Event.rpushE k v] }

/-- Redis `LRANGE key 0 -1` (full read of a list value). -/
def World.lrangeRaw (w : World) (k : String) : List Bytes × World :=
  (w.lists k, { w with log := w.log ++ [Event.lrangeE k] })

/-- Redis `EXISTS` (membership of the key in the store). -/
def World.existsRaw (w : World) (k : String) : Nat × World :=
  ((if w.kv k ≠ none ∨ w.lists k ≠ [] then 1 else 0),
    { w with log := w.log ++ [Event.existsE k] })

/-- Redis `FLUSHDB` (clear every key). -/
def World.flushdbRaw (w : World) : World :=
  { w with kv := fun _ => none, lists := fun _ => [],
           log := w.log ++ [Event.flushE] }

/-! ### The Cache facade and the two decorators -/

/-- A `Cache` instance; `validRedis` models whether `self._redis` passes
the decorators' `isinstance(self._redis, redis.Redis)` check. -/
structure Cache where
  validRedis : Bool

/-- A (possibly decorated) method bound to a `Cache` instance: it takes
the instance, the positional arguments and the world, and returns either
a result or a raised exception, together with the updated world. -/
abbrev Meth (α ρ : Type) := Cache → α → World → Except PyErr ρ × World

/-- The `count_calls` decorator: increment the counter at the method's
qualified name (skipped silently when the store reference is invalid),
then invoke the wrapped method. -/
def count_calls {α ρ : Type} (qualname : String) (method : Meth α ρ) :
    Meth α ρ :=
  fun self a w =>
    if self.validRedis then
      match w.incrRaw qualname with
      | (Except.ok _, w1) => method self a w1
      | (Except.error e, w1) => (Except.error e, w1)
    else
      method self a w

/-- The `call_history` decorator: append the rendered positional
arguments to `<qualname>:inputs`, invoke the wrapped method, then append
its result to `<qualname>:outputs` (both appends skipped silently when
the store reference is invalid; no output append when the method
raises). -/
def call_history {α ρ : Type} (qualname : String) (render : α → String)
    (encOut : ρ → Bytes) (method : Meth α ρ) : Meth α ρ :=
  fun self a w =>
    let input_key := qualname ++ ":inputs"
    let output_key := qualname ++ ":outputs"
    let w1 := if self.validRedis then
      w.rpushRaw input_key (strUtf8 (render a)) else w
    match method self a w1 with
    | (Except.ok out, w2) =>
      (Except.ok out,
        if self.validRedis then w2.rpushRaw output_key (encOut out) else w2)
    | (Except.error e, w2) => (Except.error e, w2)

/-- The qualified name of `Cache.store`, used as the operation identity. -/
def storeQualname : String := "Cache.store"

/-- The raw (undecorated) body of `Cache.store`: draw a fresh uuid,
`SET` the encoded value under it, return the key.  With an invalid store
reference the `SET` attribute access raises. -/
def storeRaw : Meth Data String :=
  fun self d w =>
    let data_key := w.uuidOf w.seed
    let w1 := { w with seed := w.seed + 1 }
    if self.validRedis then
      (Except.ok data_key, w1.setRaw data_key (encodeData d))
    else
      (Except.error (PyErr.attributeError "set"), w1)

/-- `Cache.store` as defined in the source: `call_history` wrapping
`count_calls` wrapping the raw body, all under the same qualified name
(`functools.wraps` preserves it across layers). -/
def Cache.store : Meth Data String :=
  call_history storeQualname renderStoreArgs strUtf8
    (count_calls storeQualname storeRaw)

/-- Python values that `Cache.get` and its typed variants can return. -/
inductive PyVal where
  | vbytes (b : Bytes)
  | vstr (s : String)
  | vint (n : Int)
  | vnone
deriving DecidableEq

/-- `Cache.get`: read the raw value (the absent sentinel `None` becomes
`vnone`), applying the optional transform to the raw read result.  With
an invalid store reference the attribute access raises. -/
def Cache.get (self : Cache) (key : String)
    (f : Option (Option Bytes → Except PyErr PyVal)) (w : World) :
    Except PyErr PyVal × World :=
  if self.validRedis then
    match w.getRaw key with
    | (d, w1) =>
      match f with
      | some g => (g d, w1)
      | none =>
        (Except.ok (match d with
          | some b => PyVal.vbytes b
          | none => PyVal.vnone), w1)
  else
    (Except.error (PyErr.attributeError "_redis"), w)

/-- The transform `lambda x: x.decode("utf-8")`: UTF-8 decode of bytes;
on the absent sentinel `None` the attribute access raises. -/
def decodeFn (d : Option Bytes) : Except PyErr PyVal :=
  match d with
  | some b =>
    match utf8DecodeStr b with
    | some s => Except.ok (PyVal.vstr s)
    | none => Except.error PyErr.unicodeDecodeError
  | none => Except.error (PyErr.attributeError "decode")

/-- The transform `lambda x: int(x)`: integer parse of bytes; on the
absent sentinel `None`, `int(None)` raises a `TypeError`. -/
def intFn (d : Option Bytes) : Except PyErr PyVal :=
  match d with
  | some b =>
    match pyIntParse b with
    | some i => Except.ok (PyVal.vint i)
    | none => Except.error (PyErr.valueError "invalid literal for int")
  | none => Except.error (PyErr.typeError "int() argument")

/-- `Cache.get_str`. -/
def Cache.get_str (self : Cache) (key : String) (w : World) :
    Except PyErr PyVal × World :=
  Cache.get self key (some decodeFn) w

/-- `Cache.get_int`. -/
def Cache.get_int (self : Cache) (key : String) (w : World) :
    Except PyErr PyVal × World :=
  Cache.get self key (some intFn) w

/-- `Cache.__init__`: connect (producing a valid store reference) and
flush the whole database. -/
def Cache.init (w : World) : Cache × World :=
  (⟨true⟩, w.flushdbRaw)

/-! ### replay -/

/-- The argument passed to `replay`: `None`, a function with no bound
instance (no `__self__`), or a method bound to a `Cache` instance under
a qualified name. -/
inductive ReplayArg where
  | pynone
  | unbound
  | bound (self : Cache) (qualname : String)

/-- CPython `str` of an integer. -/
def intStr (i : Int) : String :=
  String.mk ((intToBytes i).map Char.ofNat)

/-- The printing loop of `replay`: one line per zipped input/output pair,
stopping with a raised decode error on a non-UTF-8 input entry (lines
already printed are kept). -/
def replayLines (name : String) :
    List (Bytes × Bytes) → List String × Except PyErr Unit
  | [] => ([], Except.ok ())
  | (inp, outp) :: rest =>
    match utf8DecodeStr inp with
    | some s =>
      match replayLines name rest with
      | (ls, r) =>
        ((name ++ "(*" ++ s ++ ") -> " ++ pyReprBytes outp) :: ls, r)
    | none => ([], Except.error PyErr.unicodeDecodeError)

/-- `replay`: returns the printed lines, the raised exception if any, and
the world (reads log events; no mutation).  Invalid arguments are a
silent no-op. -/
def replay (fn : ReplayArg) (w : World) :
    List String × Except PyErr Unit × World :=
  match fn with
  | ReplayArg.pynone => ([], Except.ok (), w)
  | ReplayArg.unbound => ([], Except.ok (), w)
  | ReplayArg.bound self name =>
    if self.validRedis then
      match w.existsRaw name with
      | (ex, w1) =>
        match (if ex ≠ 0 then
            match w1.getRaw name with
            | (d, w2) =>
              ((match d with
                | some b =>
                  match pyIntParse b with
                  | some i => Except.ok i
                  | none =>
                    Except.error (PyErr.valueError "invalid literal for int")
                | none => Except.error (PyErr.typeError "int() argument")),
                w2)
          else (Except.ok 0, w1)) with
        | (Except.error e, w2) => ([], Except.error e, w2)
        | (Except.ok cnt, w2) =>
          match w2.lrangeRaw (name ++ ":inputs") with
          | (ins, w3) =>
            match w3.lrangeRaw (name ++ ":outputs") with
            | (outs, w4) =>
              match replayLines name (ins.zip outs) with
              | (ls, r) =>
                ((name ++ " was called " ++ intStr cnt ++ " times:") :: ls,
                  r, w4)
    else ([], Except.ok (), w)

/-- Sequential `Cache.store` calls on one instance, collecting results. -/
def storeMany (self : Cache) : List Data → World →
    List (Except PyErr String) × World
  | [], w => ([], w)
  | d :: ds, w =>
    match Cache.store self d w with
    | (r, w1) =>
      match storeMany self ds w1 with
      | (rs, w2) => (r :: rs, w2)

/-! ### Behavior of a single `Cache.store` call -/

/-- Counter key state from which `INCR` proceeds: absent (value 0) or
holding the decimal rendering of `m`. -/
def counterReady (w : World) (name : String) (m : Nat) : Prop :=
  (w.kv name = none ∧ m = 0) ∨ w.kv name = some (intToBytes (m : Int))

/-! ### Example world used by witnesses -/

/-- A concrete world for witness instantiations: empty store, uuid oracle
enumerating decimal strings prefixed with a letter. -/
def wEx : World :=
  { kv := fun _ => none, lists := fun _ => [], log := [],
    uuidOf := fun n => "u" ++ intStr n, seed := 0 }

/-- A concrete undecorated method for witness instantiations. -/
def methEx : Meth Nat Nat := fun _ n w => (Except.ok (n + 1), w)

/-- An argument to `replay` that does not resolve to a live store
connection: `None`, a function with no bound instance, or a bound method
whose instance's store reference is invalid. -/
def invalidReplayArg (fn : ReplayArg) : Prop :=
  fn = ReplayArg.pynone ∨ fn = ReplayArg.unbound ∨
    ∃ s q, fn = ReplayArg.bound s q ∧ s.validRedis = false

/-- A world holding four keys exercising all four branches of C4. -/
def wC4 : World :=
  { kv := fun k =>
      if k = "ks" then some (strUtf8 "hé")
      else if k = "kb" then some [255]
      else if k = "k42" then some (strUtf8 "42")
      else if k = "kabc" then some (strUtf8 "abc")
      else none,
    lists := fun _ => [], log := [], uuidOf := fun n => "u" ++ intStr n,
    seed := 0 }

/-- The world as seen by the raw operation inside the doubly-wrapped
method, after the recorder's input append and the counter's increment. -/
def preState {α : Type} (qualname : String) (render : α → String) (a : α)
    (w : World) : World :=
  ((w.rpushRaw (qualname ++ ":inputs") (strUtf8 (render a))).incrRaw
    qualname).2

/-- A concrete method that always raises, for the C10 witness. -/
def failMeth : Meth Nat Nat :=
  fun _ _ w => (Except.error (PyErr.valueError "boom"), w)

/-- The intermediate world of the C10 witness. -/
def preEx : World := preState "m" (fun _ : Nat => "x") 3 wEx

/-- Decoding of every entry of a list of byte strings; `none` when any
entry is not valid UTF-8. -/
def decodeAll : List Bytes → Option (List String)
  | [] => some []
  | b :: t =>
    match utf8DecodeStr b with
    | some s => (decodeAll t).map (s :: ·)
    | none => none

/-- A world with three recorded `Cache.store` calls, for the C5 witness. -/
def wC5 : World :=
  { kv := fun k => if k = "Cache.store" then some (strUtf8 "3") else none,
    lists := fun k =>
      if k = "Cache.store:inputs" then
        [strUtf8 "(1,)", strUtf8 "(2,)", strUtf8 "(3,)"]
      else if k = "Cache.store:outputs" then
        [strUtf8 "u0", strUtf8 "u1", strUtf8 "u2"]
      else [],
    log := [], uuidOf := fun n => "u" ++ intStr n, seed := 3 }

/-- The world after one completed `Cache.store` call (the right-hand side
of `store_ok`, as a definition usable in induction). -/
def postStore (d : Data) (m : Nat) (w : World) : World :=
  { kv := fun x => if x = w.uuidOf w.seed then some (encodeData d)
      else if x = storeQualname then some (intToBytes ((m + 1 : Nat) : Int))
      else w.kv x,
    lists := fun x => if x = storeQualname ++ ":outputs" then
        (if x = storeQualname ++ ":inputs" then
          w.lists x ++ [strUtf8 (renderStoreArgs d)] else w.lists x) ++
          [strUtf8 (w.uuidOf w.seed)]
      else if x = storeQualname ++ ":inputs" then
        w.lists x ++ [strUtf8 (renderStoreArgs d)]
      else w.lists x,
    log := w.log ++
      [Event.rpushE (storeQualname ++ ":inputs")
        (strUtf8 (renderStoreArgs d)),
       Event.incrE storeQualname,
       Event.setE (w.uuidOf w.seed) (encodeData d),
       Event.rpushE (storeQualname ++ ":outputs")
        (strUtf8 (w.uuidOf w.seed))],
    uuidOf := w.uuidOf,
    seed := w.seed + 1 }

/-! ## Theorems -/
theorem concatMap_nil (f : α → List β) : concatMap f [] = [] := rfl

theorem concatMap_cons (f : α → List β) (a : α) (l : List α) :
    concatMap f (a :: l) = f a ++ concatMap f l := rfl

theorem contTail1_length (b0 : Nat) (t : Bytes) (n : Nat) (rest : Bytes)
    (h : contTail1 b0 t = some (n, rest)) : rest.length < t.length := by
  match t with
  | [] => simp [contTail1] at h
  | b1 :: t1 =>
    simp only [contTail1] at h
    split at h
    · simp at h
      simp [h.2.symm]
    · simp at h

theorem contTail2_length (b0 : Nat) (t : Bytes) (n : Nat) (rest : Bytes)
    (h : contTail2 b0 t = some (n, rest)) : rest.length < t.length := by
  match t with
  | [] => simp [contTail2] at h
  | [b1] => simp [contTail2] at h
  | b1 :: b2 :: t2 =>
    simp only [contTail2] at h
    split at h
    · split at h
      · simp at h
        simp [h.2.symm]
        omega
      · simp at h
    · simp at h

theorem contTail3_length (b0 : Nat) (t : Bytes) (n : Nat) (rest : Bytes)
    (h : contTail3 b0 t = some (n, rest)) : rest.length < t.length := by
  match t with
  | [] => simp [contTail3] at h
  | [b1] => simp [contTail3] at h
  | [b1, b2] => simp [contTail3] at h
  | b1 :: b2 :: b3 :: t3 =>
    simp only [contTail3] at h
    split at h
    · split at h
      · simp at h
        simp [h.2.symm]
        omega
      · simp at h
    · simp at h

theorem decodeOne_length (l : Bytes) (n : Nat) (rest : Bytes)
    (h : decodeOne l = some (n, rest)) : rest.length < l.length := by
  match l with
  | [] => simp [decodeOne] at h
  | b0 :: t =>
    simp only [decodeOne] at h
    split at h
    · simp at h
      simp [h.2.symm]
    · split at h
      · exact Nat.lt_trans (contTail1_length b0 t n rest h) (by simp)
      · split at h
        · exact Nat.lt_trans (contTail2_length b0 t n rest h) (by simp)
        · split at h
          · exact Nat.lt_trans (contTail3_length b0 t n rest h) (by simp)
          · simp at h

theorem decodeLoop_fuel (fuel : Nat) :
    ∀ (fuel' : Nat) (l : Bytes), l.length ≤ fuel → l.length ≤ fuel' →
      decodeLoop fuel l = decodeLoop fuel' l := by
  induction fuel with
  | zero =>
    intro fuel' l hl _
    match l with
    | [] =>
      match fuel' with
      | 0 => rfl
      | _ + 1 => rfl
    | _ :: _ => simp at hl
  | succ f ih =>
    intro fuel' l hl hl'
    match l with
    | [] =>
      match fuel' with
      | 0 => rfl
      | _ + 1 => rfl
    | b0 :: t =>
      match fuel' with
      | 0 => simp at hl'
      | f' + 1 =>
        show (match decodeOne (b0 :: t) with
          | some (n, rest) => (decodeLoop f rest).map (n :: ·)
          | none => none) =
          (match decodeOne (b0 :: t) with
          | some (n, rest) => (decodeLoop f' rest).map (n :: ·)
          | none => none)
        match hd : decodeOne (b0 :: t) with
        | none => rfl
        | some (n, rest) =>
          have hlt := decodeOne_length (b0 :: t) n rest hd
          simp only
          rw [ih f' rest (by simp at hl hlt ⊢; omega)
            (by simp at hl' hlt ⊢; omega)]

theorem decodeCPs_nil : decodeCPs [] = some [] := rfl

theorem decodeCPs_step (l : Bytes) (n : Nat) (rest : Bytes)
    (h : decodeOne l = some (n, rest)) :
    decodeCPs l = (decodeCPs rest).map (n :: ·) := by
  match l with
  | [] => simp [decodeOne] at h
  | b0 :: t =>
    have hlt := decodeOne_length (b0 :: t) n rest h
    show decodeLoop (t.length + 1) (b0 :: t) = _
    show (match decodeOne (b0 :: t) with
      | some (n, rest) => (decodeLoop t.length rest).map (n :: ·)
      | none => none) = _
    rw [h]
    simp only
    rw [decodeLoop_fuel t.length rest.length rest (by simp at hlt; omega)
      (Nat.le_refl _)]
    rfl

theorem decodeCPs_stuck (l : Bytes) (hne : l ≠ [])
    (h : decodeOne l = none) : decodeCPs l = none := by
  match l with
  | [] => exact absurd rfl hne
  | b0 :: t =>
    show (match decodeOne (b0 :: t) with
      | some (n, rest) => (decodeLoop t.length rest).map (n :: ·)
      | none => none) = none
    rw [h]

/-- Decoding one sequence inverts encoding, in any byte-stream context. -/
theorem decodeOne_encodeCP (n : Nat) (h : n.isValidChar) (rest : Bytes) :
    decodeOne (encodeCP n ++ rest) = some (n, rest) := by
  have hlt : n < 0x110000 := by
    rcases h with h | h
    · omega
    · omega
  by_cases h1 : n < 0x80
  · rw [encodeCP, if_pos h1]
    show decodeOne (n :: rest) = some (n, rest)
    simp only [decodeOne]
    rw [if_pos h1]
  · by_cases h2 : n < 0x800
    · rw [encodeCP, if_neg h1, if_pos h2]
      show decodeOne ((0xC0 + n / 64) :: (0x80 + n % 64) :: rest) = _
      simp only [decodeOne]
      rw [if_neg (by omega), if_pos (by omega : 0xC2 ≤ 0xC0 + n / 64 ∧
        0xC0 + n / 64 < 0xE0)]
      simp only [contTail1]
      rw [if_pos (by omega : 0x80 ≤ 0x80 + n % 64 ∧ 0x80 + n % 64 < 0xC0)]
      have : cp2 (0xC0 + n / 64) (0x80 + n % 64) = n := by
        simp only [cp2]
        omega
      rw [this]
    · by_cases h3 : n < 0x10000
      · rw [encodeCP, if_neg h1, if_neg h2, if_pos h3]
        show decodeOne
          ((0xE0 + n / 4096) :: (0x80 + n / 64 % 64) :: (0x80 + n % 64) ::
            rest) = _
        simp only [decodeOne]
        rw [if_neg (by omega), if_neg (by omega), if_pos
          (by omega : 0xE0 ≤ 0xE0 + n / 4096 ∧ 0xE0 + n / 4096 < 0xF0)]
        simp only [contTail2]
        rw [if_pos (by omega : (0x80 ≤ 0x80 + n / 64 % 64 ∧
          0x80 + n / 64 % 64 < 0xC0) ∧
          0x80 ≤ 0x80 + n % 64 ∧ 0x80 + n % 64 < 0xC0)]
        have hcp : cp3 (0xE0 + n / 4096) (0x80 + n / 64 % 64)
            (0x80 + n % 64) = n := by
          simp only [cp3]
          omega
        rw [hcp]
        have hsur : 0x800 ≤ n ∧ (n < 0xD800 ∨ 0xE000 ≤ n) := by
          constructor
          · omega
          · rcases h with h | h
            · left
              omega
            · right
              omega
        rw [if_pos hsur]
      · rw [encodeCP, if_neg h1, if_neg h2, if_neg h3]
        show decodeOne
          ((0xF0 + n / 262144) :: (0x80 + n / 4096 % 64) ::
            (0x80 + n / 64 % 64) :: (0x80 + n % 64) :: rest) = _
        simp only [decodeOne]
        rw [if_neg (by omega), if_neg (by omega), if_neg (by omega),
          if_pos (by omega : 0xF0 ≤ 0xF0 + n / 262144 ∧
            0xF0 + n / 262144 < 0xF5)]
        simp only [contTail3]
        rw [if_pos (by omega : (0x80 ≤ 0x80 + n / 4096 % 64 ∧
          0x80 + n / 4096 % 64 < 0xC0) ∧
          (0x80 ≤ 0x80 + n / 64 % 64 ∧ 0x80 + n / 64 % 64 < 0xC0) ∧
          0x80 ≤ 0x80 + n % 64 ∧ 0x80 + n % 64 < 0xC0)]
        have hcp : cp4 (0xF0 + n / 262144) (0x80 + n / 4096 % 64)
            (0x80 + n / 64 % 64) (0x80 + n % 64) = n := by
          simp only [cp4]
          omega
        rw [hcp]
        rw [if_pos (by omega : 0x10000 ≤ n ∧ n < 0x110000)]

/-- Decoding inverts encoding on any valid scalar value, in any context. -/
theorem decodeCPs_encodeCP_append (n : Nat) (h : n.isValidChar)
    (rest : Bytes) :
    decodeCPs (encodeCP n ++ rest) = (decodeCPs rest).map (n :: ·) :=
  decodeCPs_step _ n rest (decodeOne_encodeCP n h rest)

/-- A successfully decoded sequence is exactly the encoding of its value. -/
theorem decodeOne_complete (l : Bytes) (n : Nat) (rest : Bytes)
    (h : decodeOne l = some (n, rest)) :
    l = encodeCP n ++ rest ∧ n.isValidChar := by
  match l with
  | [] => simp [decodeOne] at h
  | b0 :: t =>
    simp only [decodeOne] at h
    by_cases h1 : b0 < 0x80
    · rw [if_pos h1] at h
      simp at h
      obtain ⟨hn, hr⟩ := h
      subst hn
      subst hr
      constructor
      · rw [encodeCP, if_pos h1]
        rfl
      · left
        omega
    · rw [if_neg h1] at h
      by_cases h2 : 0xC2 ≤ b0 ∧ b0 < 0xE0
      · rw [if_pos h2] at h
        match t with
        | [] => simp [contTail1] at h
        | b1 :: t1 =>
          simp only [contTail1] at h
          by_cases hc : 0x80 ≤ b1 ∧ b1 < 0xC0
          · rw [if_pos hc] at h
            simp at h
            obtain ⟨hn, hr⟩ := h
            subst hn
            subst hr
            have hval : 0x80 ≤ cp2 b0 b1 ∧ cp2 b0 b1 < 0x800 := by
              simp only [cp2]
              omega
            constructor
            · rw [encodeCP, if_neg (by omega), if_pos hval.2]
              have e0 : 0xC0 + cp2 b0 b1 / 64 = b0 := by
                simp only [cp2]
                omega
              have e1 : 0x80 + cp2 b0 b1 % 64 = b1 := by
                simp only [cp2]
                omega
              rw [e0, e1]
              rfl
            · left
              omega
          · rw [if_neg hc] at h
            simp at h
      · rw [if_neg h2] at h
        by_cases h3 : 0xE0 ≤ b0 ∧ b0 < 0xF0
        · rw [if_pos h3] at h
          match t with
          | [] => simp [contTail2] at h
          | [b1] => simp [contTail2] at h
          | b1 :: b2 :: t2 =>
            simp only [contTail2] at h
            by_cases hc : (0x80 ≤ b1 ∧ b1 < 0xC0) ∧ 0x80 ≤ b2 ∧ b2 < 0xC0
            · rw [if_pos hc] at h
              by_cases hv : 0x800 ≤ cp3 b0 b1 b2 ∧
                  (cp3 b0 b1 b2 < 0xD800 ∨ 0xE000 ≤ cp3 b0 b1 b2)
              · rw [if_pos hv] at h
                simp at h
                obtain ⟨hn, hr⟩ := h
                subst hn
                subst hr
                have hub : cp3 b0 b1 b2 < 0x10000 := by
                  simp only [cp3] at hv ⊢
                  omega
                constructor
                · rw [encodeCP, if_neg (by omega), if_neg (by omega),
                    if_pos hub]
                  have e0 : 0xE0 + cp3 b0 b1 b2 / 4096 = b0 := by
                    simp only [cp3]
                    omega
                  have e1 : 0x80 + cp3 b0 b1 b2 / 64 % 64 = b1 := by
                    simp only [cp3]
                    omega
                  have e2 : 0x80 + cp3 b0 b1 b2 % 64 = b2 := by
                    simp only [cp3]
                    omega
                  rw [e0, e1, e2]
                  rfl
                · rcases hv.2 with hs | hs
                  · left
                    omega
                  · right
                    constructor
                    · omega
                    · omega
              · rw [if_neg hv] at h
                simp at h
            · rw [if_neg hc] at h
              simp at h
        · rw [if_neg h3] at h
          by_cases h4 : 0xF0 ≤ b0 ∧ b0 < 0xF5
          · rw [if_pos h4] at h
            match t with
            | [] => simp [contTail3] at h
            | [b1] => simp [contTail3] at h
            | [b1, b2] => simp [contTail3] at h
            | b1 :: b2 :: b3 :: t3 =>
              simp only [contTail3] at h
              by_cases hc : (0x80 ≤ b1 ∧ b1 < 0xC0) ∧
                  (0x80 ≤ b2 ∧ b2 < 0xC0) ∧ 0x80 ≤ b3 ∧ b3 < 0xC0
              · rw [if_pos hc] at h
                by_cases hv : 0x10000 ≤ cp4 b0 b1 b2 b3 ∧
                    cp4 b0 b1 b2 b3 < 0x110000
                · rw [if_pos hv] at h
                  simp at h
                  obtain ⟨hn, hr⟩ := h
                  subst hn
                  subst hr
                  constructor
                  · rw [encodeCP, if_neg (by omega), if_neg (by omega),
                      if_neg (by omega)]
                    have e0 : 0xF0 + cp4 b0 b1 b2 b3 / 262144 = b0 := by
                      simp only [cp4]
                      omega
                    have e1 : 0x80 + cp4 b0 b1 b2 b3 / 4096 % 64 = b1 := by
                      simp only [cp4]
                      omega
                    have e2 : 0x80 + cp4 b0 b1 b2 b3 / 64 % 64 = b2 := by
                      simp only [cp4]
                      omega
                    have e3 : 0x80 + cp4 b0 b1 b2 b3 % 64 = b3 := by
                      simp only [cp4]
                      omega
                    rw [e0, e1, e2, e3]
                    rfl
                  · right
                    constructor
                    · omega
                    · omega
                · rw [if_neg hv] at h
                  simp at h
              · rw [if_neg hc] at h
                simp at h
          · rw [if_neg h4] at h
            simp at h

theorem decodeLoop_complete (fuel : Nat) :
    ∀ (l : Bytes) (cps : List Nat), decodeLoop fuel l = some cps →
      l = concatMap encodeCP cps ∧ ∀ n ∈ cps, n.isValidChar := by
  induction fuel with
  | zero =>
    intro l cps h
    match l with
    | [] =>
      simp [decodeLoop] at h
      subst h
      simp [concatMap]
    | _ :: _ => simp [decodeLoop] at h
  | succ f ih =>
    intro l cps h
    match l with
    | [] =>
      simp [decodeLoop] at h
      subst h
      simp [concatMap]
    | b0 :: t =>
      rw [show decodeLoop (f + 1) (b0 :: t) =
        (match decodeOne (b0 :: t) with
          | some (n, rest) => (decodeLoop f rest).map (n :: ·)
          | none => none) from rfl] at h
      match hd : decodeOne (b0 :: t) with
      | none =>
        rw [hd] at h
        simp at h
      | some (n, rest) =>
        rw [hd] at h
        simp only [Option.map_eq_some'] at h
        obtain ⟨cps', hcps', hcons⟩ := h
        obtain ⟨hl, hval⟩ := decodeOne_complete (b0 :: t) n rest hd
        obtain ⟨hrest, hvals⟩ := ih rest cps' hcps'
        subst hcons
        constructor
        · rw [concatMap_cons, ← hrest]
          exact hl
        · intro m hm
          rcases List.mem_cons.mp hm with hm | hm
          · subst hm
            exact hval
          · exact hvals m hm

/-- A successfully decoded byte string is exactly the encoding of the
decoded code points, and those code points are valid scalar values. -/
theorem decodeCPs_complete (l : Bytes) (cps : List Nat)
    (h : decodeCPs l = some cps) :
    l = concatMap encodeCP cps ∧ ∀ n ∈ cps, n.isValidChar :=
  decodeLoop_complete l.length l cps h

theorem toNat_ofNat_valid (n : Nat) (h : n.isValidChar) :
    (Char.ofNat n).toNat = n := by
  simp only [Char.ofNat, h, dite_true]
  rfl

theorem decodeCPs_concatMap (cps : List Nat)
    (h : ∀ n ∈ cps, n.isValidChar) :
    decodeCPs (concatMap encodeCP cps) = some cps := by
  induction cps with
  | nil => exact decodeCPs_nil
  | cons n cps ih =>
    rw [concatMap_cons,
      decodeCPs_encodeCP_append n (h n (List.mem_cons_self n cps)) _,
      ih (fun m hm => h m (List.mem_cons_of_mem n hm))]
    rfl

/-- Round trip: strict UTF-8 decoding inverts UTF-8 encoding of text. -/
theorem utf8DecodeStr_strUtf8 (s : String) :
    utf8DecodeStr (strUtf8 s) = some s := by
  rw [utf8DecodeStr, strUtf8, decodeCPs_concatMap]
  · simp only [Option.map_some', List.map_map]
    have : (s.data.map Char.toNat).map Char.ofNat = s.data := by
      rw [List.map_map]
      have : (Char.ofNat ∘ Char.toNat) = id := by
        funext c
        exact Char.ofNat_toNat c
      rw [this, List.map_id]
    rw [show (Char.ofNat ∘ Char.toNat) = fun c => Char.ofNat c.toNat from
      rfl]
    congr 1
    rw [show (fun c => Char.ofNat (Char.toNat c)) = id from
      funext fun c => Char.ofNat_toNat c, List.map_id]
  · intro n hn
    rw [List.mem_map] at hn
    obtain ⟨c, _, hc⟩ := hn
    subst hc
    exact c.valid

/-- Completeness: a byte string that decodes to text `t` is exactly the
UTF-8 encoding of `t`.  Contrapositive: any byte string that is not the
encoding of any text fails strict decoding. -/
theorem utf8DecodeStr_some (b : Bytes) (t : String)
    (h : utf8DecodeStr b = some t) : b = strUtf8 t := by
  rw [utf8DecodeStr] at h
  simp only [Option.map_eq_some'] at h
  obtain ⟨cps, hcps, ht⟩ := h
  obtain ⟨hb, hval⟩ := decodeCPs_complete b cps hcps
  subst ht
  rw [strUtf8]
  show b = concatMap encodeCP ((cps.map Char.ofNat).map Char.toNat)
  rw [List.map_map]
  have hmap : cps.map (Char.toNat ∘ Char.ofNat) = cps := by
    have h1 : cps.map (Char.toNat ∘ Char.ofNat) = cps.map id := by
      apply List.map_congr_left
      intro a ha
      exact toNat_ofNat_valid a (hval a ha)
    rw [h1, List.map_id]
  rw [hmap]
  exact hb

theorem natToDigitBytes_ne_nil (n : Nat) : natToDigitBytes n ≠ [] := by
  rw [natToDigitBytes]
  split
  · simp
  · simp

theorem natToDigitBytes_digits (n : Nat) :
    ∀ b ∈ natToDigitBytes n, 48 ≤ b ∧ b ≤ 57 := by
  induction n using Nat.strong_induction_on with
  | _ n ih =>
    rw [natToDigitBytes]
    split
    · intro b hb
      simp at hb
      omega
    · intro b hb
      rw [List.mem_append] at hb
      rcases hb with hb | hb
      · exact ih (n / 10) (by omega) b hb
      · simp at hb
        omega

theorem digitsValAux_append (l1 l2 : Bytes) (acc : Nat) :
    digitsValAux (l1 ++ l2) acc =
      match digitsValAux l1 acc with
      | some m => digitsValAux l2 m
      | none => none := by
  induction l1 generalizing acc with
  | nil => rfl
  | cons b t ih =>
    rw [List.cons_append]
    show (if 48 ≤ b ∧ b ≤ 57 then digitsValAux (t ++ l2) (acc * 10 + (b - 48))
      else none) = _
    by_cases hb : 48 ≤ b ∧ b ≤ 57
    · rw [if_pos hb, ih]
      show _ = (match (if 48 ≤ b ∧ b ≤ 57 then
        digitsValAux t (acc * 10 + (b - 48)) else none) with
        | some m => digitsValAux l2 m
        | none => none)
      rw [if_pos hb]
    · rw [if_neg hb]
      show none = (match (if 48 ≤ b ∧ b ≤ 57 then
        digitsValAux t (acc * 10 + (b - 48)) else none) with
        | some m => digitsValAux l2 m
        | none => none)
      rw [if_neg hb]

theorem digitsValAux_natToDigitBytes (n : Nat) :
    ∀ acc : Nat, digitsValAux (natToDigitBytes n) acc =
      some (acc * 10 ^ (natToDigitBytes n).length + n) := by
  induction n using Nat.strong_induction_on with
  | _ n ih =>
    intro acc
    rw [natToDigitBytes]
    split
    · show digitsValAux [48 + n] acc = _
      show (if 48 ≤ 48 + n ∧ 48 + n ≤ 57 then
        digitsValAux [] (acc * 10 + (48 + n - 48)) else none) = _
      rw [if_pos (by omega)]
      show some (acc * 10 + (48 + n - 48)) = _
      simp only [List.length_singleton, pow_one]
      congr 1
      omega
    · rw [digitsValAux_append]
      rw [ih (n / 10) (by omega) acc]
      show digitsValAux [48 + n % 10] _ = _
      show (if 48 ≤ 48 + n % 10 ∧ 48 + n % 10 ≤ 57 then
        digitsValAux [] ((acc * 10 ^ (natToDigitBytes (n / 10)).length +
          n / 10) * 10 + (48 + n % 10 - 48)) else none) = _
      rw [if_pos (by omega)]
      show some _ = _
      congr 1
      rw [List.length_append, List.length_singleton, pow_succ]
      have h48 : 48 + n % 10 - 48 = n % 10 := by omega
      rw [h48]
      ring_nf
      omega

/-- Parsing inverts rendering for natural numbers. -/
theorem digitsVal_natToDigitBytes (n : Nat) :
    digitsVal (natToDigitBytes n) = some n := by
  match hb : natToDigitBytes n with
  | [] => exact absurd hb (natToDigitBytes_ne_nil n)
  | b :: t =>
    show digitsValAux (b :: t) 0 = some n
    rw [← hb, digitsValAux_natToDigitBytes n 0]
    simp

theorem natToDigitBytes_head_ne_45 (n : Nat) :
    ∀ b t, natToDigitBytes n = b :: t → b ≠ 45 := by
  intro b t hb
  have := natToDigitBytes_digits n b (by rw [hb]; exact List.mem_cons_self b t)
  omega

/-- Redis parsing inverts decimal rendering of integers. -/
theorem redisParseInt_intToBytes (i : Int) :
    redisParseInt (intToBytes i) = some i := by
  match i with
  | Int.ofNat n =>
    show redisParseInt (natToDigitBytes n) = some (n : Int)
    match hb : natToDigitBytes n with
    | [] => exact absurd hb (natToDigitBytes_ne_nil n)
    | b :: t =>
      show (if b = 45 then (digitsVal t).map (fun n => -(n : Int))
        else (digitsVal (b :: t)).map (fun n => (n : Int))) = _
      rw [if_neg (natToDigitBytes_head_ne_45 n b t hb), ← hb,
        digitsVal_natToDigitBytes n]
      rfl
  | Int.negSucc m =>
    show redisParseInt (45 :: natToDigitBytes (m + 1)) = some (Int.negSucc m)
    simp [redisParseInt, digitsVal_natToDigitBytes (m + 1), Int.negSucc_eq]

theorem digitsValAux_isSome (l : Bytes) (acc : Nat)
    (h : ∀ b ∈ l, 48 ≤ b ∧ b ≤ 57) : ∃ n, digitsValAux l acc = some n := by
  induction l generalizing acc with
  | nil => exact ⟨acc, rfl⟩
  | cons b t ih =>
    show ∃ n, (if 48 ≤ b ∧ b ≤ 57 then
      digitsValAux t (acc * 10 + (b - 48)) else none) = some n
    rw [if_pos (h b (List.mem_cons_self b t))]
    exact ih _ (fun d hd => h d (List.mem_cons_of_mem b hd))

theorem digitsValAux_bad (l : Bytes) (acc : Nat)
    (h : ∃ b ∈ l, ¬ (48 ≤ b ∧ b ≤ 57)) : digitsValAux l acc = none := by
  induction l generalizing acc with
  | nil =>
    obtain ⟨b, hb, _⟩ := h
    simp at hb
  | cons c t ih =>
    show (if 48 ≤ c ∧ c ≤ 57 then digitsValAux t (acc * 10 + (c - 48))
      else none) = none
    obtain ⟨b, hb, hbad⟩ := h
    rcases List.mem_cons.mp hb with hcb | hcb
    · subst hcb
      rw [if_neg hbad]
    · by_cases hcd : 48 ≤ c ∧ c ≤ 57
      · rw [if_pos hcd]
        exact ih _ ⟨b, hcb, hbad⟩
      · rw [if_neg hcd]

theorem digitsVal_bad (l : Bytes)
    (h : ∃ b ∈ l, ¬ (48 ≤ b ∧ b ≤ 57)) : digitsVal l = none := by
  match l with
  | [] => rfl
  | b :: t => exact digitsValAux_bad (b :: t) 0 h

theorem digitsGroupAux_cons_digit (b : Nat) (t : Bytes) (acc : Nat)
    (hb : 48 ≤ b ∧ b ≤ 57) :
    digitsGroupAux (b :: t) acc = digitsGroupAux t (acc * 10 + (b - 48)) := by
  rw [digitsGroupAux.eq_def]
  dsimp only
  rw [if_pos hb]

theorem digitsGroupAux_cons_unders (c : Nat) (t2 : Bytes) (acc : Nat)
    (hc : 48 ≤ c ∧ c ≤ 57) :
    digitsGroupAux (95 :: c :: t2) acc =
      digitsGroupAux t2 (acc * 10 + (c - 48)) := by
  rw [digitsGroupAux.eq_def]
  dsimp only
  rw [if_neg (by omega), if_pos rfl, if_pos hc]

theorem digitsGroupAux_all_digits (t : Bytes) :
    ∀ acc : Nat, (∀ b ∈ t, 48 ≤ b ∧ b ≤ 57) →
      digitsGroupAux t acc = digitsValAux t acc := by
  induction t with
  | nil =>
    intro acc _
    rfl
  | cons b t' ih =>
    intro acc hall
    have hb := hall b (List.mem_cons_self b t')
    rw [digitsGroupAux_cons_digit b t' acc hb]
    show _ = (if 48 ≤ b ∧ b ≤ 57 then digitsValAux t' (acc * 10 + (b - 48))
      else none)
    rw [if_pos hb]
    exact ih _ (fun d hd => hall d (List.mem_cons_of_mem b hd))

/-- On plain digit runs (no underscores), `int()` digit parsing computes
the decimal value; in particular it accepts every rendered natural. -/
theorem digitsUVal_natToDigitBytes (n : Nat) :
    digitsUVal (natToDigitBytes n) = some n := by
  have hd := digitsVal_natToDigitBytes n
  match hb : natToDigitBytes n with
  | [] => exact absurd hb (natToDigitBytes_ne_nil n)
  | b :: t =>
    rw [hb] at hd
    have hdig := natToDigitBytes_digits n
    rw [hb] at hdig
    have hbd : 48 ≤ b ∧ b ≤ 57 := hdig b (List.mem_cons_self b t)
    show (if 48 ≤ b ∧ b ≤ 57 then digitsGroupAux t (b - 48) else none) =
      some n
    rw [if_pos hbd]
    rw [digitsGroupAux_all_digits t (b - 48)
      (fun d hdm => hdig d (List.mem_cons_of_mem b hdm))]
    have hv : digitsVal (b :: t) = digitsValAux t (b - 48) := by
      show digitsValAux (b :: t) 0 = _
      show (if 48 ≤ b ∧ b ≤ 57 then digitsValAux t (0 * 10 + (b - 48))
        else none) = _
      rw [if_pos hbd]
      congr 1
      omega
    rw [← hv]
    exact hd

theorem noAdjU_cons_cons (a b : Nat) (u : Bytes) :
    noAdjU (a :: b :: u) =
      ((!(decide (a = 95) && decide (b = 95))) && noAdjU (b :: u)) := rfl

theorem lastDigit_cons_cons (a b : Nat) (u : Bytes) :
    lastDigit (a :: b :: u) = lastDigit (b :: u) := by
  simp [lastDigit, List.getLast?_cons_cons]

/-- A string accepted by the grouped-digit parser consists of digits and
underscores, ends in a digit, and (prepended with any digit) has no two
adjacent underscores. -/
theorem digitsGroupAux_literal :
    ∀ (N : Nat) (t : Bytes), t.length ≤ N → ∀ (acc n : Nat),
      digitsGroupAux t acc = some n →
      t.all (fun d => isDigitByte d || decide (d = 95)) = true ∧
      (t = [] ∨ lastDigit t = true) ∧
      (∀ c, isDigitByte c = true → noAdjU (c :: t) = true) := by
  intro N
  induction N with
  | zero =>
    intro t ht acc n h
    match t with
    | [] => exact ⟨rfl, Or.inl rfl, fun c _ => rfl⟩
    | _ :: _ => simp at ht
  | succ N ih =>
    intro t ht acc n h
    match t with
    | [] => exact ⟨rfl, Or.inl rfl, fun c _ => rfl⟩
    | b :: t' =>
      by_cases hb : 48 ≤ b ∧ b ≤ 57
      · rw [digitsGroupAux_cons_digit b t' acc hb] at h
        obtain ⟨hall, hlast, hpairs⟩ := ih t' (by simp at ht ⊢; omega) _ n h
        have hbd : isDigitByte b = true := by
          simp [isDigitByte]
          omega
        refine ⟨?_, Or.inr ?_, ?_⟩
        · simp [List.all_cons, hbd, hall]
        · match t' with
          | [] => simp [lastDigit, hbd]
          | d :: t'' =>
            rw [lastDigit_cons_cons]
            rcases hlast with h0 | h0
            · exact absurd h0 (by simp)
            · exact h0
        · intro c hcd
          rw [noAdjU_cons_cons]
          have hb95 : b ≠ 95 := by omega
          simp [hb95, hpairs b hbd]
      · by_cases hu : b = 95
        · subst hu
          match t' with
          | [] =>
            rw [digitsGroupAux.eq_def] at h
            dsimp only at h
            rw [if_neg hb, if_pos rfl] at h
            simp at h
          | c :: t2 =>
            by_cases hc : 48 ≤ c ∧ c ≤ 57
            · rw [digitsGroupAux_cons_unders c t2 acc hc] at h
              obtain ⟨hall, hlast, hpairs⟩ :=
                ih t2 (by simp at ht ⊢; omega) _ n h
              have hcd : isDigitByte c = true := by
                simp [isDigitByte]
                omega
              refine ⟨?_, Or.inr ?_, ?_⟩
              · simp [List.all_cons, hcd, hall]
              · rw [lastDigit_cons_cons]
                match t2 with
                | [] => simp [lastDigit, hcd]
                | e :: t3 =>
                  rw [lastDigit_cons_cons]
                  rcases hlast with h0 | h0
                  · exact absurd h0 (by simp)
                  · exact h0
              · intro d hdd
                rw [noAdjU_cons_cons, noAdjU_cons_cons]
                have hd95 : d ≠ 95 := by
                  simp [isDigitByte] at hdd
                  omega
                have hc95 : c ≠ 95 := by omega
                simp [hd95, hc95, hpairs c hcd]
            · rw [digitsGroupAux.eq_def] at h
              dsimp only at h
              rw [if_neg hb, if_pos rfl, if_neg hc] at h
              simp at h
        · rw [digitsGroupAux.eq_def] at h
          dsimp only at h
          rw [if_neg hb, if_neg hu] at h
          simp at h

/-- A string accepted by `int()` digit parsing satisfies the positional
literal conditions of `isIntLiteral`. -/
theorem digitsUVal_literal (u : Bytes) (n : Nat)
    (h : digitsUVal u = some n) :
    ∃ c rest, u = c :: rest ∧
      (isDigitByte c &&
        (c :: rest).all (fun d => isDigitByte d || decide (d = 95)) &&
        lastDigit (c :: rest) && noAdjU (c :: rest)) = true := by
  match u with
  | [] => simp [digitsUVal] at h
  | b :: t =>
    by_cases hb : 48 ≤ b ∧ b ≤ 57
    · have h' : digitsGroupAux t (b - 48) = some n := by
        have hred : digitsUVal (b :: t) = digitsGroupAux t (b - 48) := by
          show (if 48 ≤ b ∧ b ≤ 57 then digitsGroupAux t (b - 48)
            else none) = _
          rw [if_pos hb]
        rw [hred] at h
        exact h
      obtain ⟨hall, hlast, hpairs⟩ :=
        digitsGroupAux_literal t.length t (Nat.le_refl _) (b - 48) n h'
      have hbd : isDigitByte b = true := by
        simp [isDigitByte]
        omega
      refine ⟨b, t, rfl, ?_⟩
      have h1 : (b :: t).all (fun d => isDigitByte d || decide (d = 95)) =
          true := by
        simp [List.all_cons, hbd, hall]
      have h2 : lastDigit (b :: t) = true := by
        match t with
        | [] => simp [lastDigit, hbd]
        | d :: t'' =>
          rw [lastDigit_cons_cons]
          rcases hlast with h0 | h0
          · exact absurd h0 (by simp)
          · exact h0
      have h3 : noAdjU (b :: t) = true := hpairs b hbd
      simp [hbd, h1, h2, h3]
    · have hred : digitsUVal (b :: t) = none := by
        show (if 48 ≤ b ∧ b ≤ 57 then digitsGroupAux t (b - 48)
          else none) = _
        rw [if_neg hb]
      rw [hred] at h
      exact Option.noConfusion h

/-- A byte string that is not an integer literal fails `int()` parsing. -/
theorem pyIntParse_not_literal (l : Bytes) (h : isIntLiteral l = false) :
    pyIntParse l = none := by
  rw [isIntLiteral] at h
  rw [pyIntParse]
  match hc : stripWS l with
  | [] => rfl
  | b :: t =>
    rw [hc] at h
    dsimp only at h ⊢
    have key : ∀ (u : Bytes),
        (match u with
          | [] => false
          | c :: rest =>
            isDigitByte c &&
              (c :: rest).all (fun d => isDigitByte d || decide (d = 95)) &&
              lastDigit (c :: rest) && noAdjU (c :: rest)) = false →
        digitsUVal u = none := by
      intro u hu
      match hdu : digitsUVal u with
      | none => rfl
      | some n =>
        exfalso
        obtain ⟨c, rest, hurw, hconj⟩ := digitsUVal_literal u n hdu
        rw [hurw] at hu
        dsimp only at hu
        rw [hconj] at hu
        exact Bool.noConfusion hu
    by_cases hb43 : b = 43
    · subst hb43
      rw [if_pos rfl]
      rw [if_pos (by rfl)] at h
      rw [key t h]
      rfl
    · rw [if_neg hb43]
      by_cases hb45 : b = 45
      · subst hb45
        rw [if_pos rfl]
        rw [if_pos (by simp)] at h
        rw [key t h]
        rfl
      · rw [if_neg hb45]
        rw [if_neg (by simp [hb43, hb45])] at h
        rw [key (b :: t) h]
        rfl

theorem dropWhile_no_match (u : Bytes)
    (hu : ∀ b ∈ u, isPySpace b = false) :
    u.dropWhile isPySpace = u := by
  match u with
  | [] => rfl
  | b :: t =>
    rw [List.dropWhile_cons_of_neg]
    simp [hu b (List.mem_cons_self b t)]

theorem stripWS_no_ws (l : Bytes) (h : ∀ b ∈ l, isPySpace b = false) :
    stripWS l = l := by
  rw [stripWS, dropWhile_no_match l h,
    dropWhile_no_match l.reverse (fun b hb => h b (List.mem_reverse.mp hb)),
    List.reverse_reverse]

theorem intToBytes_no_ws (i : Int) :
    ∀ b ∈ intToBytes i, isPySpace b = false := by
  match i with
  | Int.ofNat n =>
    intro b hb
    have := natToDigitBytes_digits n b hb
    simp [isPySpace]
    omega
  | Int.negSucc m =>
    intro b hb
    rcases List.mem_cons.mp hb with hb | hb
    · subst hb
      rfl
    · have := natToDigitBytes_digits (m + 1) b hb
      simp [isPySpace]
      omega

/-- CPython's `int()` inverts decimal rendering of integers. -/
theorem pyIntParse_intToBytes (i : Int) :
    pyIntParse (intToBytes i) = some i := by
  rw [pyIntParse]
  rw [show stripWS (intToBytes i) = intToBytes i from
    stripWS_no_ws _ (intToBytes_no_ws i)]
  match i with
  | Int.ofNat n =>
    show (match natToDigitBytes n with
      | [] => none
      | b :: t =>
        if b = 43 then (digitsUVal t).map (fun n => (n : Int))
        else if b = 45 then (digitsUVal t).map (fun n => -(n : Int))
        else (digitsUVal (b :: t)).map (fun n => (n : Int))) = some (n : Int)
    match hb : natToDigitBytes n with
    | [] => exact absurd hb (natToDigitBytes_ne_nil n)
    | b :: t =>
      have hd := natToDigitBytes_digits n b
        (by rw [hb]; exact List.mem_cons_self b t)
      simp only
      rw [if_neg (by omega), if_neg (by omega), ← hb,
        digitsUVal_natToDigitBytes n]
      rfl
  | Int.negSucc m =>
    show (match (45 :: natToDigitBytes (m + 1) : Bytes) with
      | [] => none
      | b :: t =>
        if b = 43 then (digitsUVal t).map (fun n => (n : Int))
        else if b = 45 then (digitsUVal t).map (fun n => -(n : Int))
        else (digitsUVal (b :: t)).map (fun n => (n : Int))) =
      some (Int.negSucc m)
    simp only
    rw [if_neg (by omega)]
    simp [digitsUVal_natToDigitBytes (m + 1), Int.negSucc_eq]

/-- One completed `Cache.store` call on a valid instance: the returned
key is the next uuid, and the world receives exactly the four store
commands input-append, increment, set, output-append, in that order. -/
theorem store_ok (self : Cache) (d : Data) (w : World) (m : Nat)
    (h : self.validRedis = true) (hcnt : counterReady w storeQualname m) :
    Cache.store self d w =
      (Except.ok (w.uuidOf w.seed),
        { kv := fun x => if x = w.uuidOf w.seed then some (encodeData d)
            else if x = storeQualname then some (intToBytes ((m + 1 : Nat) : Int))
            else w.kv x,
          lists := fun x => if x = storeQualname ++ ":outputs" then
              (if x = storeQualname ++ ":inputs" then
                w.lists x ++ [strUtf8 (renderStoreArgs d)] else w.lists x) ++
                [strUtf8 (w.uuidOf w.seed)]
            else if x = storeQualname ++ ":inputs" then
              w.lists x ++ [strUtf8 (renderStoreArgs d)]
            else w.lists x,
          log := w.log ++
            [Event.rpushE (storeQualname ++ ":inputs")
              (strUtf8 (renderStoreArgs d)),
             Event.incrE storeQualname,
             Event.setE (w.uuidOf w.seed) (encodeData d),
             Event.rpushE (storeQualname ++ ":outputs")
              (strUtf8 (w.uuidOf w.seed))],
          uuidOf := w.uuidOf,
          seed := w.seed + 1 }) := by
  rcases hcnt with ⟨hk, hm⟩ | hk
  · subst hm
    simp only [Cache.store, call_history, count_calls, storeRaw,
      World.rpushRaw, World.incrRaw, World.setRaw, h, if_true, hk]
    refine Prod.ext rfl ?_
    congr 1
    simp [List.append_assoc]
  · simp only [Cache.store, call_history, count_calls, storeRaw,
      World.rpushRaw, World.incrRaw, World.setRaw, h, if_true, hk,
      redisParseInt_intToBytes]
    have hcast : ((m : Int) + 1) = (((m + 1 : Nat)) : Int) := by
      push_cast
      ring
    rw [hcast]
    refine Prod.ext rfl ?_
    congr 1
    simp [List.append_assoc]

/-- C7: constructing a Cache clears every existing key in the backing
store: after construction no string key and no list key from any previous
instance survives, whatever the prior store state was. -/
theorem claim_C7 (w : World) :
    ∀ k, ((Cache.init w).2).kv k = none ∧ ((Cache.init w).2).lists k = [] :=
  fun _ => ⟨rfl, rfl⟩

/-- C2: a completed invocation of the doubly-wrapped `Cache.store` on a
valid instance issues exactly four store commands, in this order: append
of the rendered arguments to `:inputs`, increment of the counter key,
the raw operation's `SET` of the value, append of the result to
`:outputs`.  In particular the increment precedes the raw operation. -/
theorem claim_C2 (self : Cache) (d : Data) (w : World) (m : Nat)
    (h : self.validRedis = true) (hcnt : counterReady w storeQualname m) :
    ((Cache.store self d w).2).log = w.log ++
      [Event.rpushE (storeQualname ++ ":inputs")
        (strUtf8 (renderStoreArgs d)),
       Event.incrE storeQualname,
       Event.setE (w.uuidOf w.seed) (encodeData d),
       Event.rpushE (storeQualname ++ ":outputs")
        (strUtf8 (w.uuidOf w.seed))] := by
  rw [store_ok self d w m h hcnt]

theorem claim_C2_witness :
    ((Cache.store ⟨true⟩ (Data.int 7) wEx).2).log = wEx.log ++
      [Event.rpushE (storeQualname ++ ":inputs")
        (strUtf8 (renderStoreArgs (Data.int 7))),
       Event.incrE storeQualname,
       Event.setE (wEx.uuidOf wEx.seed) (encodeData (Data.int 7)),
       Event.rpushE (storeQualname ++ ":outputs")
        (strUtf8 (wEx.uuidOf wEx.seed))] :=
  claim_C2 ⟨true⟩ (Data.int 7) wEx 0 rfl (Or.inl ⟨rfl, rfl⟩)

/-- C3: a completed `Cache.store` of any accepted scalar returns the
freshly drawn key, and an immediately following `Cache.get` of that key
with no transform returns the value as serialized by the store's native
encoding. -/
theorem claim_C3 (self : Cache) (v : Data) (w : World) (m : Nat)
    (h : self.validRedis = true) (hcnt : counterReady w storeQualname m) :
    (Cache.store self v w).1 = Except.ok (w.uuidOf w.seed) ∧
    (Cache.get self (w.uuidOf w.seed) none ((Cache.store self v w).2)).1 =
      Except.ok (PyVal.vbytes (encodeData v)) := by
  rw [store_ok self v w m h hcnt]
  refine ⟨rfl, ?_⟩
  simp [Cache.get, World.getRaw, h]

theorem claim_C3_witness :
    (Cache.store ⟨true⟩ (Data.str "abc") wEx).1 =
      Except.ok (wEx.uuidOf wEx.seed) ∧
    (Cache.get ⟨true⟩ (wEx.uuidOf wEx.seed) none
        ((Cache.store ⟨true⟩ (Data.str "abc") wEx).2)).1 =
      Except.ok (PyVal.vbytes (encodeData (Data.str "abc"))) :=
  claim_C3 ⟨true⟩ (Data.str "abc") wEx 0 rfl (Or.inl ⟨rfl, rfl⟩)

/-- C8: with an invalid store reference, the doubly-wrapped operation is
the underlying operation: the increment and both history appends are
skipped silently, the wrapped method still runs on the original
arguments, and its outcome (result or exception, and its effect on the
world) is returned unchanged. -/
theorem claim_C8 {α ρ : Type} (qualname : String) (render : α → String)
    (encOut : ρ → Bytes) (method : Meth α ρ) (self : Cache)
    (h : self.validRedis = false) (a : α) (w : World) :
    call_history qualname render encOut (count_calls qualname method)
      self a w = method self a w := by
  simp only [call_history, count_calls, h, Bool.false_eq_true, if_false]
  split
  · rename_i out w2 heq
    rw [heq]
  · rename_i e w2 heq
    rw [heq]

theorem claim_C8_witness :
    call_history "m" (fun _ => "") (fun _ => []) (count_calls "m" methEx)
      ⟨false⟩ 3 wEx = methEx ⟨false⟩ 3 wEx :=
  claim_C8 "m" (fun _ => "") (fun _ => []) methEx ⟨false⟩ rfl 3 wEx

/-- C9: on an absent key, `Cache.get` with no transform passes the
store's absent sentinel through unchanged, while `get_str` and `get_int`
apply their transform to the sentinel unconditionally and therefore
always raise (an attribute error for `decode`, a type error for `int`)
instead of returning the sentinel. -/
theorem claim_C9 (self : Cache) (key : String) (w : World)
    (h : self.validRedis = true) (hk : w.kv key = none) :
    (Cache.get self key none w).1 = Except.ok PyVal.vnone ∧
    (Cache.get_str self key w).1 =
      Except.error (PyErr.attributeError "decode") ∧
    (Cache.get_int self key w).1 =
      Except.error (PyErr.typeError "int() argument") := by
  refine ⟨?_, ?_, ?_⟩
  · simp [Cache.get, World.getRaw, h, hk]
  · simp [Cache.get_str, Cache.get, World.getRaw, h, hk, decodeFn]
  · simp [Cache.get_int, Cache.get, World.getRaw, h, hk, intFn]

theorem claim_C9_witness :
    (Cache.get ⟨true⟩ "nope" none wEx).1 = Except.ok PyVal.vnone ∧
    (Cache.get_str ⟨true⟩ "nope" wEx).1 =
      Except.error (PyErr.attributeError "decode") ∧
    (Cache.get_int ⟨true⟩ "nope" wEx).1 =
      Except.error (PyErr.typeError "int() argument") :=
  claim_C9 ⟨true⟩ "nope" wEx rfl rfl

/-- C6: on any argument that does not resolve to a live store connection,
`replay` is a silent no-op: it prints nothing, raises nothing, issues no
store command and leaves the world exactly as it was. -/
theorem claim_C6 (fn : ReplayArg) (w : World) (h : invalidReplayArg fn) :
    replay fn w = ([], Except.ok (), w) := by
  rcases h with h | h | ⟨s, q, h, hv⟩
  · subst h
    rfl
  · subst h
    rfl
  · subst h
    simp [replay, hv]

theorem claim_C6_witness :
    replay (ReplayArg.bound ⟨false⟩ "Cache.store") wEx =
      ([], Except.ok (), wEx) :=
  claim_C6 (ReplayArg.bound ⟨false⟩ "Cache.store") wEx
    (Or.inr (Or.inr ⟨⟨false⟩, "Cache.store", rfl, rfl⟩))

/-- C4: `get_str` on a key holding the UTF-8 encoding of a text returns
exactly that text, and on a key holding bytes that are no text's UTF-8
encoding it raises a decode error; `get_int` on a key holding the
literal `"42"` returns the integer 42, and on a key holding bytes that
are not a base-10 integer literal it raises a parse error — in all
failure cases the error is surfaced to the caller, not swallowed. -/
theorem claim_C4 :
    (∀ (self : Cache) (key : String) (w : World) (t : String),
      self.validRedis = true → w.kv key = some (strUtf8 t) →
      (Cache.get_str self key w).1 = Except.ok (PyVal.vstr t)) ∧
    (∀ (self : Cache) (key : String) (w : World) (b : Bytes),
      self.validRedis = true → w.kv key = some b →
      (∀ t : String, b ≠ strUtf8 t) →
      (Cache.get_str self key w).1 =
        Except.error PyErr.unicodeDecodeError) ∧
    (∀ (self : Cache) (key : String) (w : World),
      self.validRedis = true → w.kv key = some (strUtf8 "42") →
      (Cache.get_int self key w).1 = Except.ok (PyVal.vint 42)) ∧
    (∀ (self : Cache) (key : String) (w : World) (b : Bytes),
      self.validRedis = true → w.kv key = some b → isIntLiteral b = false →
      (Cache.get_int self key w).1 =
        Except.error (PyErr.valueError "invalid literal for int")) := by
  refine ⟨?_, ?_, ?_, ?_⟩
  · intro self key w t h hk
    simp [Cache.get_str, Cache.get, World.getRaw, h, hk, decodeFn,
      utf8DecodeStr_strUtf8]
  · intro self key w b h hk hne
    have hdec : utf8DecodeStr b = none := by
      match hd : utf8DecodeStr b with
      | none => rfl
      | some t => exact absurd (utf8DecodeStr_some b t hd) (hne t)
    simp [Cache.get_str, Cache.get, World.getRaw, h, hk, decodeFn, hdec]
  · intro self key w h hk
    simp [Cache.get_int, Cache.get, World.getRaw, h, hk, intFn]
    rfl
  · intro self key w b h hk hlit
    simp [Cache.get_int, Cache.get, World.getRaw, h, hk, intFn,
      pyIntParse_not_literal b hlit]

theorem claim_C4_witness :
    (Cache.get_str ⟨true⟩ "ks" wC4).1 = Except.ok (PyVal.vstr "hé") ∧
    (Cache.get_str ⟨true⟩ "kb" wC4).1 =
      Except.error PyErr.unicodeDecodeError ∧
    (Cache.get_int ⟨true⟩ "k42" wC4).1 = Except.ok (PyVal.vint 42) ∧
    (Cache.get_int ⟨true⟩ "kabc" wC4).1 =
      Except.error (PyErr.valueError "invalid literal for int") :=
  ⟨claim_C4.1 ⟨true⟩ "ks" wC4 "hé" rfl (by simp [wC4]),
   claim_C4.2.1 ⟨true⟩ "kb" wC4 [255] rfl (by simp [wC4])
     (fun t ht => by
       have h1 := utf8DecodeStr_strUtf8 t
       rw [← ht] at h1
       have h2 : utf8DecodeStr [255] = none := rfl
       rw [h2] at h1
       exact Option.noConfusion h1),
   claim_C4.2.2.1 ⟨true⟩ "k42" wC4 rfl (by simp [wC4]),
   claim_C4.2.2.2 ⟨true⟩ "kabc" wC4 (strUtf8 "abc") rfl (by simp [wC4])
     (by decide)⟩

theorem inputs_ne_outputs (q : String) : q ++ ":inputs" ≠ q ++ ":outputs" := by
  intro hcontra
  have h1 : (q ++ ":inputs").data = (q ++ ":outputs").data :=
    congrArg String.data hcontra
  rw [String.data_append, String.data_append] at h1
  have h2 : (":inputs").data = (":outputs").data :=
    List.append_cancel_left h1
  simp at h2

/-- C10: when the underlying operation of the doubly-wrapped method
raises, the input rendering has already been appended and the counter
already incremented, no output entry is appended, and the exception
propagates unchanged — so (when the raw operation leaves the history
keys alone) a failed call leaves `:inputs` exactly one element longer
than `:outputs`, breaking the length-equality invariant without any
concurrency. -/
theorem claim_C10 {α ρ : Type} (qualname : String) (render : α → String)
    (encOut : ρ → Bytes) (method : Meth α ρ) (self : Cache) (a : α)
    (w w2 : World) (e : PyErr) (m : Nat)
    (h : self.validRedis = true)
    (hcnt : counterReady w qualname m)
    (hfail : method self a (preState qualname render a w) =
      (Except.error e, w2))
    (hin : w2.lists (qualname ++ ":inputs") =
      (preState qualname render a w).lists (qualname ++ ":inputs"))
    (hout : w2.lists (qualname ++ ":outputs") =
      (preState qualname render a w).lists (qualname ++ ":outputs"))
    (hlen : (w.lists (qualname ++ ":inputs")).length =
      (w.lists (qualname ++ ":outputs")).length) :
    call_history qualname render encOut (count_calls qualname method)
      self a w = (Except.error e, w2) ∧
    (preState qualname render a w).kv qualname =
      some (intToBytes ((m + 1 : Nat) : Int)) ∧
    w2.lists (qualname ++ ":inputs") =
      w.lists (qualname ++ ":inputs") ++ [strUtf8 (render a)] ∧
    w2.lists (qualname ++ ":outputs") = w.lists (qualname ++ ":outputs") ∧
    (w2.lists (qualname ++ ":inputs")).length =
      (w2.lists (qualname ++ ":outputs")).length + 1 := by
  have hpre_in : (preState qualname render a w).lists
      (qualname ++ ":inputs") =
      w.lists (qualname ++ ":inputs") ++ [strUtf8 (render a)] := by
    rcases hcnt with ⟨hk, _⟩ | hk
    · simp [preState, World.rpushRaw, World.incrRaw, hk]
    · simp [preState, World.rpushRaw, World.incrRaw, hk,
        redisParseInt_intToBytes]
  have hpre_out : (preState qualname render a w).lists
      (qualname ++ ":outputs") = w.lists (qualname ++ ":outputs") := by
    rcases hcnt with ⟨hk, _⟩ | hk
    · simp [preState, World.rpushRaw, World.incrRaw, hk,
        (inputs_ne_outputs qualname).symm]
    · simp [preState, World.rpushRaw, World.incrRaw, hk,
        redisParseInt_intToBytes, (inputs_ne_outputs qualname).symm]
  have hpre_kv : (preState qualname render a w).kv qualname =
      some (intToBytes ((m + 1 : Nat) : Int)) := by
    rcases hcnt with ⟨hk, hm⟩ | hk
    · subst hm
      simp [preState, World.rpushRaw, World.incrRaw, hk]
    · simp [preState, World.rpushRaw, World.incrRaw, hk,
        redisParseInt_intToBytes]
  refine ⟨?_, hpre_kv, ?_, ?_, ?_⟩
  · simp only [call_history, count_calls, h, if_true]
    rcases hcnt with ⟨hk, _⟩ | hk
    · simp only [World.rpushRaw, World.incrRaw]
      simp only [show ({ w with
          lists := fun x => if x = qualname ++ ":inputs" then
            w.lists x ++ [strUtf8 (render a)] else w.lists x,
          log := w.log ++ [Event.rpushE (qualname ++ ":inputs")
            (strUtf8 (render a))] } : World).kv = w.kv from rfl, hk]
      have hfail' := hfail
      simp only [preState, World.rpushRaw, World.incrRaw, hk] at hfail'
      rw [hfail']
    · simp only [World.rpushRaw, World.incrRaw]
      simp only [show ({ w with
          lists := fun x => if x = qualname ++ ":inputs" then
            w.lists x ++ [strUtf8 (render a)] else w.lists x,
          log := w.log ++ [Event.rpushE (qualname ++ ":inputs")
            (strUtf8 (render a))] } : World).kv = w.kv from rfl, hk,
        redisParseInt_intToBytes]
      have hfail' := hfail
      simp only [preState, World.rpushRaw, World.incrRaw, hk,
        redisParseInt_intToBytes] at hfail'
      rw [hfail']
  · rw [hin, hpre_in]
  · rw [hout, hpre_out]
  · rw [hin, hpre_in, hout, hpre_out]
    simp [hlen]

theorem claim_C10_witness :
    (call_history "m" (fun _ : Nat => "x") (fun _ : Nat => ([] : Bytes))
      (count_calls "m" failMeth) ⟨true⟩ 3 wEx =
      (Except.error (PyErr.valueError "boom"), preEx)) ∧
    preEx.kv "m" = some (intToBytes ((0 + 1 : Nat) : Int)) ∧
    preEx.lists ("m" ++ ":inputs") =
      wEx.lists ("m" ++ ":inputs") ++ [strUtf8 "x"] ∧
    preEx.lists ("m" ++ ":outputs") = wEx.lists ("m" ++ ":outputs") ∧
    (preEx.lists ("m" ++ ":inputs")).length =
      (preEx.lists ("m" ++ ":outputs")).length + 1 :=
  claim_C10 "m" (fun _ => "x") (fun _ => []) failMeth ⟨true⟩ 3 wEx preEx
    (PyErr.valueError "boom") 0 rfl (Or.inl ⟨rfl, rfl⟩) rfl rfl rfl rfl

theorem decodeAll_length (bs : List Bytes) :
    ∀ ins : List String, decodeAll bs = some ins →
      ins.length = bs.length := by
  induction bs with
  | nil =>
    intro ins h
    simp [decodeAll] at h
    subst h
    rfl
  | cons b t ih =>
    intro ins h
    simp only [decodeAll] at h
    match hd : utf8DecodeStr b with
    | none =>
      rw [hd] at h
      simp at h
    | some s =>
      rw [hd] at h
      simp only [Option.map_eq_some'] at h
      obtain ⟨ins', hins', hcons⟩ := h
      subst hcons
      simp [ih ins' hins']

theorem replayLines_decoded (name : String) :
    ∀ (bs : List Bytes) (ins : List String) (outs : List Bytes),
      decodeAll bs = some ins →
      replayLines name (bs.zip outs) =
        ((ins.zip outs).map
          (fun p => name ++ "(*" ++ p.1 ++ ") -> " ++ pyReprBytes p.2),
         Except.ok ()) := by
  intro bs
  induction bs with
  | nil =>
    intro ins outs h
    simp [decodeAll] at h
    subst h
    rfl
  | cons b t ih =>
    intro ins outs h
    simp only [decodeAll] at h
    match hd : utf8DecodeStr b with
    | none =>
      rw [hd] at h
      simp at h
    | some s =>
      rw [hd] at h
      simp only [Option.map_eq_some'] at h
      obtain ⟨ins', hins', hcons⟩ := h
      subst hcons
      match outs with
      | [] => rfl
      | o :: outs' =>
        show replayLines name ((b, o) :: t.zip outs') = _
        simp only [replayLines, hd, ih ins' outs' hins']
        simp [List.zip_cons_cons]

/-- C5: on a valid instance, `replay` prints a header reporting the
counter value (read as 0 when the counter key is absent), followed by one
line per index pairing the decoded i-th input with the i-th output, up to
the length of the shorter sequence; it raises nothing and performs no
mutation.  With zero recorded calls this is the "0 times" header and no
call lines; with three recorded calls it is exactly three lines in call
order. -/
theorem claim_C5 (self : Cache) (name : String) (w : World) (c : Int)
    (h : self.validRedis = true)
    (hc : match w.kv name with
      | some b => pyIntParse b = some c
      | none => w.lists name = [] ∧ c = 0)
    (ins : List String)
    (hins : decodeAll (w.lists (name ++ ":inputs")) = some ins) :
    (replay (ReplayArg.bound self name) w).1 =
      (name ++ " was called " ++ intStr c ++ " times:") ::
        (ins.zip (w.lists (name ++ ":outputs"))).map
          (fun p => name ++ "(*" ++ p.1 ++ ") -> " ++ pyReprBytes p.2) ∧
    (replay (ReplayArg.bound self name) w).2.1 = Except.ok () ∧
    ((replay (ReplayArg.bound self name) w).2.2).kv = w.kv ∧
    ((replay (ReplayArg.bound self name) w).2.2).lists = w.lists ∧
    ((replay (ReplayArg.bound self name) w).1).length =
      1 + min (w.lists (name ++ ":inputs")).length
        (w.lists (name ++ ":outputs")).length := by
  match hkv : w.kv name with
  | some b =>
    rw [hkv] at hc
    dsimp only at hc
    have hred : replay (ReplayArg.bound self name) w =
        ((name ++ " was called " ++ intStr c ++ " times:") ::
          (ins.zip (w.lists (name ++ ":outputs"))).map
            (fun p => name ++ "(*" ++ p.1 ++ ") -> " ++ pyReprBytes p.2),
         Except.ok (),
         { w with log := w.log ++ [Event.existsE name, Event.getE name,
            Event.lrangeE (name ++ ":inputs"),
            Event.lrangeE (name ++ ":outputs")] }) := by
      simp only [replay, h, if_true, World.existsRaw, World.getRaw,
        World.lrangeRaw]
      rw [if_pos (by simp [hkv])]
      simp only [hkv, hc]
      rw [replayLines_decoded name _ ins _ hins]
      refine Prod.ext rfl ?_
      refine Prod.ext rfl ?_
      congr 1
      simp
    rw [hred]
    refine ⟨rfl, rfl, rfl, rfl, ?_⟩
    simp [decodeAll_length _ ins hins, List.length_zip]
    omega
  | none =>
    rw [hkv] at hc
    dsimp only at hc
    obtain ⟨hlst, hc0⟩ := hc
    subst hc0
    have hred : replay (ReplayArg.bound self name) w =
        ((name ++ " was called " ++ intStr 0 ++ " times:") ::
          (ins.zip (w.lists (name ++ ":outputs"))).map
            (fun p => name ++ "(*" ++ p.1 ++ ") -> " ++ pyReprBytes p.2),
         Except.ok (),
         { w with log := w.log ++ [Event.existsE name,
            Event.lrangeE (name ++ ":inputs"),
            Event.lrangeE (name ++ ":outputs")] }) := by
      simp only [replay, h, if_true, World.existsRaw, World.getRaw,
        World.lrangeRaw]
      rw [if_neg (by simp [hkv, hlst])]
      simp only
      rw [replayLines_decoded name _ ins _ hins]
      refine Prod.ext rfl ?_
      refine Prod.ext rfl ?_
      congr 1
      simp
    rw [hred]
    refine ⟨rfl, rfl, rfl, rfl, ?_⟩
    simp [decodeAll_length _ ins hins, List.length_zip]
    omega

theorem claim_C5_witness :
    (replay (ReplayArg.bound ⟨true⟩ "Cache.store") wC5).1 =
      ("Cache.store" ++ " was called " ++ intStr 3 ++ " times:") ::
        ((["(1,)", "(2,)", "(3,)"].zip
          (wC5.lists ("Cache.store" ++ ":outputs"))).map
          (fun p => "Cache.store" ++ "(*" ++ p.1 ++ ") -> " ++
            pyReprBytes p.2)) ∧
    (replay (ReplayArg.bound ⟨true⟩ "Cache.store") wC5).2.1 =
      Except.ok () ∧
    ((replay (ReplayArg.bound ⟨true⟩ "Cache.store") wC5).2.2).kv =
      wC5.kv ∧
    ((replay (ReplayArg.bound ⟨true⟩ "Cache.store") wC5).2.2).lists =
      wC5.lists ∧
    ((replay (ReplayArg.bound ⟨true⟩ "Cache.store") wC5).1).length =
      1 + min (wC5.lists ("Cache.store" ++ ":inputs")).length
        (wC5.lists ("Cache.store" ++ ":outputs")).length :=
  claim_C5 ⟨true⟩ "Cache.store" wC5 3 rfl (by rfl)
    ["(1,)", "(2,)", "(3,)"] (by rfl)

theorem store_ok_post (self : Cache) (d : Data) (w : World) (m : Nat)
    (h : self.validRedis = true) (hcnt : counterReady w storeQualname m) :
    Cache.store self d w =
      (Except.ok (w.uuidOf w.seed), postStore d m w) :=
  store_ok self d w m h hcnt

theorem postStore_kv_qn (d : Data) (m : Nat) (w : World)
    (hkey : w.uuidOf w.seed ≠ storeQualname) :
    (postStore d m w).kv storeQualname =
      some (intToBytes ((m + 1 : Nat) : Int)) := by
  simp [postStore, Ne.symm hkey]

theorem postStore_in (d : Data) (m : Nat) (w : World) :
    (postStore d m w).lists (storeQualname ++ ":inputs") =
      w.lists (storeQualname ++ ":inputs") ++
        [strUtf8 (renderStoreArgs d)] := by
  simp [postStore, inputs_ne_outputs storeQualname]

theorem postStore_out (d : Data) (m : Nat) (w : World) :
    (postStore d m w).lists (storeQualname ++ ":outputs") =
      w.lists (storeQualname ++ ":outputs") ++
        [strUtf8 (w.uuidOf w.seed)] := by
  simp [postStore, (inputs_ne_outputs storeQualname).symm]

theorem storeMany_ok (self : Cache) (h : self.validRedis = true) :
    ∀ (ds : List Data) (w : World) (m : Nat)
      (rs : List (Except PyErr String)) (w2 : World),
      counterReady w storeQualname m →
      (∀ n, w.uuidOf n ≠ storeQualname) →
      storeMany self ds w = (rs, w2) →
      rs = (List.range ds.length).map
        (fun i => Except.ok (w.uuidOf (w.seed + i))) ∧
      w2.kv storeQualname =
        (if ds.length = 0 then w.kv storeQualname
         else some (intToBytes ((m + ds.length : Nat) : Int))) ∧
      w2.lists (storeQualname ++ ":inputs") =
        w.lists (storeQualname ++ ":inputs") ++
          ds.map (fun d => strUtf8 (renderStoreArgs d)) ∧
      w2.lists (storeQualname ++ ":outputs") =
        w.lists (storeQualname ++ ":outputs") ++
          (List.range ds.length).map
            (fun i => strUtf8 (w.uuidOf (w.seed + i))) ∧
      w2.uuidOf = w.uuidOf ∧
      w2.seed = w.seed + ds.length := by
  intro ds
  induction ds with
  | nil =>
    intro w m rs w2 hcnt hkeys hstep
    simp only [storeMany] at hstep
    injection hstep with hrs hw2
    subst hrs
    subst hw2
    refine ⟨by simp, by simp, by simp, by simp, rfl, rfl⟩
  | cons d ds ih =>
    intro w m rs w2 hcnt hkeys hstep
    simp only [storeMany] at hstep
    rw [store_ok_post self d w m h hcnt] at hstep
    dsimp only at hstep
    rcases hsm : storeMany self ds (postStore d m w) with ⟨rs', w2'⟩
    rw [hsm] at hstep
    injection hstep with hrs hw2
    subst hrs
    subst hw2
    obtain ⟨h1, h2, h3, h4, h5, h6⟩ := ih (postStore d m w) (m + 1) rs' w2'
      (Or.inr (postStore_kv_qn d m w (hkeys w.seed)))
      (fun n => hkeys n) hsm
    have huu : (postStore d m w).uuidOf = w.uuidOf := rfl
    have hsd : (postStore d m w).seed = w.seed + 1 := rfl
    refine ⟨?_, ?_, ?_, ?_, ?_, ?_⟩
    · rw [h1]
      simp only [huu, hsd, List.length_cons, List.range_succ_eq_map,
        List.map_cons, List.map_map]
      refine congrArg₂ List.cons (by simp) ?_
      apply List.map_congr_left
      intro i _
      simp only [Function.comp, Nat.succ_eq_add_one]
      have he : w.seed + 1 + i = w.seed + (i + 1) := by omega
      rw [he]
    · rw [h2]
      simp only [List.length_cons]
      by_cases hnil : ds.length = 0
      · rw [if_pos hnil, postStore_kv_qn d m w (hkeys w.seed)]
        rw [if_neg (by omega)]
        rw [show m + 1 = m + (ds.length + 1) from by omega]
      · rw [if_neg hnil, if_neg (by omega)]
        rw [show m + 1 + ds.length = m + (ds.length + 1) from by omega]
    · rw [h3, postStore_in]
      simp
    · rw [h4, postStore_out]
      simp only [huu, hsd, List.length_cons, List.range_succ_eq_map,
        List.map_cons, List.map_map, List.append_assoc]
      congr 1
      rw [List.singleton_append]
      refine congrArg₂ List.cons (by simp) ?_
      apply List.map_congr_left
      intro i _
      simp only [Function.comp, Nat.succ_eq_add_one]
      have he : w.seed + 1 + i = w.seed + (i + 1) := by omega
      rw [he]
    · rw [h5]
      exact huu
    · rw [h6, hsd]
      simp only [List.length_cons]
      omega

/-- C1: starting from a freshly constructed instance, any sequence of N
`Cache.store` calls all complete, returning the successive fresh keys;
afterwards the counter at the operation identity reads as N (stored as
its decimal rendering when N > 0, absent and hence read as 0 when N = 0),
and the `:inputs` and `:outputs` sequences each hold exactly the N
entries in call order, the i-th input rendering corresponding to the i-th
returned key. -/
theorem claim_C1 (w : World) (ds : List Data)
    (hkeys : ∀ n, w.uuidOf n ≠ storeQualname) :
    (storeMany (Cache.init w).1 ds (Cache.init w).2).1 =
      (List.range ds.length).map
        (fun i => Except.ok (w.uuidOf (w.seed + i))) ∧
    ((storeMany (Cache.init w).1 ds (Cache.init w).2).2).kv storeQualname =
      (if ds.length = 0 then none
       else some (intToBytes ((ds.length : Nat) : Int))) ∧
    (match ((storeMany (Cache.init w).1 ds
        (Cache.init w).2).2).kv storeQualname with
      | some b => pyIntParse b
      | none => some 0) = some ((ds.length : Nat) : Int) ∧
    ((storeMany (Cache.init w).1 ds (Cache.init w).2).2).lists
        (storeQualname ++ ":inputs") =
      ds.map (fun d => strUtf8 (renderStoreArgs d)) ∧
    ((storeMany (Cache.init w).1 ds (Cache.init w).2).2).lists
        (storeQualname ++ ":outputs") =
      (List.range ds.length).map
        (fun i => strUtf8 (w.uuidOf (w.seed + i))) := by
  obtain ⟨h1, h2, h3, h4, _, _⟩ := storeMany_ok (Cache.init w).1 rfl ds
    (Cache.init w).2 0
    (storeMany (Cache.init w).1 ds (Cache.init w).2).1
    (storeMany (Cache.init w).1 ds (Cache.init w).2).2
    (Or.inl ⟨rfl, rfl⟩) (fun n => hkeys n) Prod.mk.eta.symm
  have hseed : ((Cache.init w).2).seed = w.seed := rfl
  have huu : ((Cache.init w).2).uuidOf = w.uuidOf := rfl
  refine ⟨?_, ?_, ?_, ?_, ?_⟩
  · rw [h1]
    simp only [huu, hseed]
  · rw [h2]
    by_cases hnil : ds.length = 0
    · rw [if_pos hnil, if_pos hnil]
      rfl
    · rw [if_neg hnil, if_neg hnil]
      rw [show (0 : Nat) + ds.length = ds.length from by omega]
  · rw [h2]
    by_cases hnil : ds.length = 0
    · rw [if_pos hnil]
      rw [show ((Cache.init w).2).kv storeQualname = none from rfl]
      rw [hnil]
      rfl
    · rw [if_neg hnil]
      dsimp only
      rw [show (0 : Nat) + ds.length = ds.length from by omega]
      exact pyIntParse_intToBytes ((ds.length : Nat) : Int)
  · rw [h3]
    rw [show ((Cache.init w).2).lists (storeQualname ++ ":inputs") = []
      from rfl]
    rw [List.nil_append]
  · rw [h4]
    rw [show ((Cache.init w).2).lists (storeQualname ++ ":outputs") = []
      from rfl]
    rw [List.nil_append]
    simp only [huu, hseed]

theorem wEx_uuid_ne (n : Nat) : wEx.uuidOf n ≠ storeQualname := by
  intro h
  have h1 := congrArg String.data h
  rw [show wEx.uuidOf n = "u" ++ intStr n from rfl] at h1
  rw [String.data_append] at h1
  rw [show ("u" : String).data = [Char.ofNat 117] from rfl] at h1
  rw [List.singleton_append] at h1
  rw [show storeQualname.data =
    Char.ofNat 67 :: ("ache.store" : String).data from rfl] at h1
  injection h1 with hc _
  exact absurd hc (by decide)

theorem claim_C1_witness :
    (storeMany (Cache.init wEx).1 [Data.int 1, Data.int 2, Data.int 3]
        (Cache.init wEx).2).1 =
      (List.range 3).map
        (fun i => Except.ok (wEx.uuidOf (wEx.seed + i))) ∧
    ((storeMany (Cache.init wEx).1 [Data.int 1, Data.int 2, Data.int 3]
        (Cache.init wEx).2).2).kv storeQualname =
      (if (3 : Nat) = 0 then none
       else some (intToBytes ((3 : Nat) : Int))) ∧
    (match ((storeMany (Cache.init wEx).1
        [Data.int 1, Data.int 2, Data.int 3]
        (Cache.init wEx).2).2).kv storeQualname with
      | some b => pyIntParse b
      | none => some 0) = some ((3 : Nat) : Int) ∧
    ((storeMany (Cache.init wEx).1 [Data.int 1, Data.int 2, Data.int 3]
        (Cache.init wEx).2).2).lists (storeQualname ++ ":inputs") =
      [Data.int 1, Data.int 2, Data.int 3].map
        (fun d => strUtf8 (renderStoreArgs d)) ∧
    ((storeMany (Cache.init wEx).1 [Data.int 1, Data.int 2, Data.int 3]
        (Cache.init wEx).2).2).lists (storeQualname ++ ":outputs") =
      (List.range 3).map
        (fun i => strUtf8 (wEx.uuidOf (wEx.seed + i))) :=
  claim_C1 wEx [Data.int 1, Data.int 2, Data.int 3] wEx_uuid_ne

end RedisBasic
